import Mathlib

/-!
Verification of the document chunking and vector-retrieval pipeline of the
postgres-and-pgvector teaching repository.

The definitions below are shallow embeddings of the Python source files:
* `src/04-chunking-pdfs/samples/01-simple-chunker.py` (`chunks_from_pdf`),
* `src/04-chunking-pdfs/lab/interactive-version/pdf_processor.py`
  (the CLI windowing loop `cli_chunks`),
* `src/05-querying-with-vectors/lab/interactive-version/search_assistant.py`
  (`search_similar`),
* `src/04-chunking-pdfs/lab/solution/utils.py` (`get_embedding`),
* `src/z-possible-final-workflow/01a-parse-with-json-field.py`
  (`parse_pdf`, `chunk_text`, `classify_chunk`, `persist_chunks_to_db`).

Python integers are modelled as `Int` where a subtraction can go negative
(chunk sizes, overlaps, LIMIT values), embedding coordinates as `ℚ`
(they are inert data: no float arithmetic is performed by the modelled
code itself), and fallible operations as `Option`/`Except`.
-/

namespace PgVector

/-! ## Windowed chunker (src/04-chunking-pdfs/samples/01-simple-chunker.py)

```python
for start in range(0, len(words_with_pages), tokens - overlap):
    chunk_data = words_with_pages[start : start + tokens]
    if chunk_data:
        chunk_words = [item[0] for item in chunk_data]
        chunk_text = " ".join(chunk_words)
        start_page = chunk_data[0][1]
        yield (start_page, chunk_text)
```
-/

/-- `" ".join(ws)` -/
def joinWords (ws : List String) : String := String.intercalate " " ws

/-- The list produced by Python `range(0, stop, step)` for an integer `step`.
`none` models the `ValueError: range() arg 3 must not be zero` raised when
`step = 0`; a negative `step` with a non-negative `stop` gives the empty
range. -/
def pyRange (stop : Nat) (step : Int) : Option (List Nat) :=
  if step = 0 then none
  else if step < 0 then some []
  else some ((List.range ((stop + step.toNat - 1) / step.toNat)).map (fun k => k * step.toNat))

/-- `chunks_from_pdf`'s windowing loop: each element of the input list is a
`(word, page)` pair, pages 1-indexed as produced by
`enumerate(reader.pages)`; `tokens` and `overlap` are the Python `int`
parameters.  Returns `none` when the `range` call raises (step zero). -/
def chunks_from_pdf (words_with_pages : List (String × Nat)) (tokens overlap : Int) :
    Option (List (Nat × String)) :=
  (pyRange words_with_pages.length (tokens - overlap)).map (fun starts =>
    starts.filterMap (fun start =>
      match (words_with_pages.drop start).take tokens.toNat with
      | [] => none
      | (w, p) :: rest => some (p, joinWords (w :: rest.map Prod.fst))))

/-! ## CLI windowing loop
(src/04-chunking-pdfs/lab/interactive-version/pdf_processor.py)

```python
i = 0
while i < len(all_words):
    chunk_words = all_words[i:i + chunk_size]
    if not chunk_words:
        break
    text_parts = [word for word, _ in chunk_words]
    start_page = chunk_words[0][1]
    chunks.append((start_page, ' '.join(text_parts)))
    i += max(1, chunk_size - overlap)
```
The loop is phrased on the remaining suffix `all_words[i:]`; the slice
`all_words[i:i+chunk_size]` is `take` of that suffix and the index bump is
`drop` of it. -/
def cli_go (chunk_size advance : Int) : List (String × Nat) → List (Nat × String)
  | [] => []
  | w :: ws =>
    match (w :: ws).take chunk_size.toNat with
    | [] => []
    | (x, p) :: rest =>
        (p, joinWords (x :: rest.map Prod.fst)) ::
          cli_go chunk_size advance ((w :: ws).drop (max 1 advance).toNat)
termination_by l => l.length
decreasing_by
  simp only [List.length_drop, List.length_cons]
  have h1 : (1 : Int) ≤ max 1 advance := le_max_left _ _
  have h2 : 1 ≤ (max 1 advance).toNat := by omega
  omega

/-- `chunks_from_pdf` of `pdf_processor.py` (the windowing part). -/
def cli_chunks (all_words : List (String × Nat)) (chunk_size overlap : Int) :
    List (Nat × String) :=
  cli_go chunk_size (chunk_size - overlap) all_words

/-! ### Window decomposition of the chunker -/

/-- The start indices the Python loop visits: `0, s, 2s, …` while `< n`. -/
def chunkStarts (n s : Nat) : List Nat :=
  (List.range ((n + s - 1) / s)).map (fun k => k * s)

/-- The token windows `words[start : start + tokens]` visited by the loop. -/
def chunkWindows (ws : List α) (tokens s : Nat) : List (List α) :=
  (chunkStarts ws.length s).map (fun st => (ws.drop st).take tokens)

/-- The body of the loop: a non-empty window becomes a `(page, text)` chunk. -/
def windowChunk : List (String × Nat) → Option (Nat × String)
  | [] => none
  | (w, p) :: rest => some (p, joinWords (w :: rest.map Prod.fst))

lemma chunkStarts_length (n s : Nat) : (chunkStarts n s).length = (n + s - 1) / s := by
  simp [chunkStarts]

lemma chunkWindows_nil (tokens s : Nat) :
    chunkWindows ([] : List α) tokens s = [] := by
  rcases Nat.eq_zero_or_pos s with hs | hs
  · subst hs; simp [chunkWindows, chunkStarts]
  · simp [chunkWindows, chunkStarts, Nat.div_eq_of_lt (show s - 1 < s by omega)]

lemma chunkWindows_cons (tokens s : Nat) (hs : 1 ≤ s) (ws : List α) (hws : ws ≠ []) :
    chunkWindows ws tokens s = ws.take tokens :: chunkWindows (ws.drop s) tokens s := by
  have hn : 1 ≤ ws.length := List.length_pos.2 hws
  have hcount : (ws.length + s - 1) / s = ((ws.drop s).length + s - 1) / s + 1 := by
    rw [List.length_drop]
    rcases le_or_lt ws.length s with hle | hlt
    · have h1 : ws.length + s - 1 = s + (ws.length - 1) := by omega
      have h2 : ws.length - s = 0 := by omega
      rw [h1, h2, Nat.add_div_left _ (by omega), Nat.div_eq_of_lt (by omega),
        Nat.div_eq_of_lt (show 0 + s - 1 < s by omega)]
    · have h1 : ws.length + s - 1 = (ws.length - s + s - 1) + s := by omega
      rw [h1, Nat.add_div_right _ (by omega)]
  unfold chunkWindows chunkStarts
  rw [hcount, List.range_succ_eq_map]
  simp only [List.map_cons, List.map_map, Nat.zero_mul, List.drop_zero]
  congr 1
  apply List.map_congr_left
  intro k _
  simp only [Function.comp_apply, List.drop_drop]
  congr 2
  simp only [Nat.succ_eq_add_one]
  ring

lemma chunkWindows_length (ws : List α) (tokens s : Nat) :
    (chunkWindows ws tokens s).length = (ws.length + s - 1) / s := by
  simp [chunkWindows, chunkStarts]

lemma chunkStarts_lt (n s : Nat) (hs : 1 ≤ s) : ∀ st ∈ chunkStarts n s, st < n := by
  intro st hst
  simp only [chunkStarts, List.mem_map, List.mem_range] at hst
  obtain ⟨k, hk, rfl⟩ := hst
  have h2 : (k + 1) * s ≤ n + s - 1 := (Nat.le_div_iff_mul_le (by omega)).1 hk
  have h3 : k * s + s ≤ n + s - 1 := by
    calc k * s + s = (k + 1) * s := by ring
    _ ≤ n + s - 1 := h2
  set a := k * s with ha
  omega

lemma chunkWindows_ne_nil (ws : List α) (tokens s : Nat) (htok : 1 ≤ tokens) (hs : 1 ≤ s) :
    ∀ w ∈ chunkWindows ws tokens s, w ≠ [] := by
  intro w hw
  simp only [chunkWindows, List.mem_map] at hw
  obtain ⟨st, hst, rfl⟩ := hw
  have hlt := chunkStarts_lt ws.length s hs st hst
  intro hnil
  have hlen := congrArg List.length hnil
  simp only [List.length_take, List.length_drop, List.length_nil] at hlen
  omega

/-- Relation between `chunks_from_pdf` and its window decomposition, for a
valid configuration (`0 ≤ overlap < tokens`). -/
lemma chunks_from_pdf_eq_windows (ws : List (String × Nat)) (tokens overlap : Int)
    (hov : 0 ≤ overlap) (hlt : overlap < tokens) :
    chunks_from_pdf ws tokens overlap =
      some ((chunkWindows ws tokens.toNat (tokens - overlap).toNat).filterMap windowChunk) := by
  have hstep : (0 : Int) < tokens - overlap := by omega
  unfold chunks_from_pdf pyRange
  rw [if_neg (by omega), if_neg (by omega)]
  unfold chunkWindows chunkStarts
  rw [List.filterMap_map]
  simp only [Option.map_some', Option.some.injEq]
  apply List.filterMap_congr
  intro st _
  simp only [Function.comp_apply, windowChunk]

lemma filterMap_length_of_forall_isSome {f : α → Option β} {l : List α}
    (h : ∀ x ∈ l, (f x).isSome) : (l.filterMap f).length = l.length := by
  induction l with
  | nil => rfl
  | cons a l ih =>
    have ha := h a (by simp)
    rcases Option.isSome_iff_exists.1 ha with ⟨b, hb⟩
    rw [List.filterMap_cons, hb]
    simp only [List.length_cons]
    rw [ih (fun x hx => h x (by simp [hx]))]

/-- "Concatenating chunk windows and removing the overlapped prefix of each
chunk after the first": the reconstruction described by the round-trip
property. -/
def dropOverlapJoin (overlap : Nat) : List (List α) → List α
  | [] => []
  | w :: rest => w ++ (rest.map (fun v => v.drop overlap)).flatten

lemma dropOverlapJoin_chunkWindows (tokens s overlap : Nat) (hs : 1 ≤ s)
    (hto : tokens = overlap + s) :
    ∀ n (ws : List α), ws.length ≤ n →
      dropOverlapJoin overlap (chunkWindows ws tokens s) = ws := by
  intro n
  induction n with
  | zero =>
    intro ws hws
    have hnil : ws = [] := List.eq_nil_of_length_eq_zero (by omega)
    subst hnil
    simp [chunkWindows_nil, dropOverlapJoin]
  | succ n ih =>
    intro ws hws
    rcases eq_or_ne ws [] with rfl | hne
    · simp [chunkWindows_nil, dropOverlapJoin]
    · have hlen : 1 ≤ ws.length := List.length_pos.2 hne
      rw [chunkWindows_cons tokens s hs ws hne]
      have hIH : dropOverlapJoin overlap (chunkWindows (ws.drop s) tokens s) = ws.drop s :=
        ih (ws.drop s) (by simp only [List.length_drop]; omega)
      rcases eq_or_ne (ws.drop s) [] with hnil2 | hne2
      · rw [hnil2, chunkWindows_nil]
        simp only [dropOverlapJoin, List.map_nil, List.flatten_nil, List.append_nil]
        have : ws.length ≤ tokens := by
          have := congrArg List.length hnil2
          simp only [List.length_drop, List.length_nil] at this
          omega
        exact List.take_of_length_le this
      · set t := ws.drop s with ht
        rw [chunkWindows_cons tokens s hs t hne2] at hIH ⊢
        simp only [dropOverlapJoin, List.map_cons, List.flatten_cons] at hIH ⊢
        have hX : ((chunkWindows (t.drop s) tokens s).map (fun v => v.drop overlap)).flatten
            = t.drop tokens := by
          have h1 := hIH
          conv_rhs at h1 => rw [← List.take_append_drop tokens t]
          exact List.append_cancel_left h1
        rw [hX]
        have hmid : (t.take tokens).drop overlap = (ws.drop tokens).take s := by
          rw [List.drop_take]
          congr 1
          · omega
          · rw [ht, List.drop_drop]
            congr 1
            omega
        rw [hmid]
        have htail : t.drop tokens = (ws.drop tokens).drop s := by
          rw [ht, List.drop_drop, List.drop_drop]
          congr 1
          omega
        rw [htail, ← List.append_assoc]
        rw [List.append_assoc (ws.take tokens)]
        rw [List.take_append_drop, List.take_append_drop]

/-- With `overlap ≥ chunk_size` the CLI loop's index bump
`i += max(1, chunk_size - overlap)` clamps to `1`, so it emits one chunk per
token instead of reporting a configuration error. -/
lemma cli_go_clamped (cs adv : Int) (hcs : 1 ≤ cs) (hadv : adv ≤ 0) :
    ∀ ws : List (String × Nat), (cli_go cs adv ws).length = ws.length := by
  intro ws
  induction ws with
  | nil => simp [cli_go]
  | cons w ws ih =>
    obtain ⟨x, p⟩ := w
    obtain ⟨k, hk⟩ : ∃ k, cs.toNat = k + 1 := ⟨cs.toNat - 1, by omega⟩
    have hmax : (max 1 adv).toNat = 1 := by omega
    rw [cli_go, hk, hmax]
    simp only [List.take_succ_cons, List.drop_succ_cons, List.drop_zero, List.length_cons]
    rw [ih]

/-! ## Claim theorems about the chunker -/

/-- **C2, counterexample.** The spec's scenario — tokens `a b c d e` on pages
`1 1 2 2 3` with `chunk_size = 3`, `overlap = 1` — yields *three* chunks, the
trailing all-overlap window `(3, "e")` included, not the two chunks the claim
states. -/
theorem c2_counterexample_trailing_window :
    chunks_from_pdf [("a",1),("b",1),("c",2),("d",2),("e",3)] 3 1
      = some [(1, "a b c"), (2, "c d e"), (3, "e")] ∧
    some [(1, "a b c"), (2, "c d e"), (3, "e")]
      ≠ some [(1, "a b c"), (2, "c d e")] := by
  refine ⟨rfl, by decide⟩

/-- **C2, amended.** For every token sequence and every configuration with
`0 ≤ overlap < chunk_size`, the windowed chunker emits exactly
`ceil (N / (chunk_size − overlap))` chunks (`N = 0` gives `0`); on the spec's
scenario this is `3`, not `2`, because the loop also emits the final window
that consists of already-seen overlap tokens only. -/
theorem c2_amended_chunk_count (ws : List (String × Nat)) (tokens overlap : Int)
    (hov : 0 ≤ overlap) (hlt : overlap < tokens) :
    ∃ l, chunks_from_pdf ws tokens overlap = some l ∧
      l.length = (ws.length + (tokens - overlap).toNat - 1) / (tokens - overlap).toNat := by
  refine ⟨_, chunks_from_pdf_eq_windows ws tokens overlap hov hlt, ?_⟩
  rw [filterMap_length_of_forall_isSome, chunkWindows_length]
  intro w hw
  have hne := chunkWindows_ne_nil ws tokens.toNat (tokens - overlap).toNat
    (by omega) (by omega) w hw
  match w, hne with
  | (x, p) :: rest, _ => simp [windowChunk]

theorem c2_amended_chunk_count_witness :
    ∃ l, chunks_from_pdf [("a",1),("b",1),("c",2),("d",2),("e",3)] 3 1 = some l ∧
      l.length = ([("a",1),("b",1),("c",2),("d",2),("e",3)].length
        + ((3 : Int) - 1).toNat - 1) / ((3 : Int) - 1).toNat :=
  c2_amended_chunk_count [("a",1),("b",1),("c",2),("d",2),("e",3)] 3 1
    (by decide) (by decide)

/-- **C3, counterexample.** With `overlap = 3 > chunk_size = 2` the chunker
does not reject the configuration: it silently returns an empty chunk list
(Python `range(0, n, negative)` is empty), which is an ordinary success, not
a configuration error. -/
theorem c3_counterexample_no_validation :
    chunks_from_pdf [("a", 1)] 2 3 = some [] ∧
    (some [] : Option (List (Nat × String))) ≠ none := by
  refine ⟨rfl, by decide⟩

/-- **C3, amended.** No validation of `overlap < chunk_size` exists anywhere:
for `overlap > chunk_size` the simple chunker silently yields zero chunks,
for `overlap = chunk_size` it fails only with a runtime `range()` step error
(after the PDF has already been read), and the CLI processor clamps the
cursor advance to `1` and silently emits one chunk per token position. -/
theorem c3_amended_no_config_error (ws : List (String × Nat)) (tokens overlap : Int)
    (htok : 1 ≤ tokens) (h : tokens ≤ overlap) :
    chunks_from_pdf ws tokens overlap = (if tokens = overlap then none else some []) ∧
    (cli_chunks ws tokens overlap).length = ws.length := by
  constructor
  · unfold chunks_from_pdf pyRange
    rcases eq_or_ne tokens overlap with heq | hne
    · rw [if_pos heq, if_pos (by omega)]
      rfl
    · rw [if_neg hne, if_neg (by omega), if_pos (by omega)]
      rfl
  · exact cli_go_clamped tokens (tokens - overlap) htok (by omega) ws

theorem c3_amended_no_config_error_witness :
    chunks_from_pdf [("a",1),("b",2)] 2 5 = (if (2 : Int) = 5 then none else some []) ∧
    (cli_chunks [("a",1),("b",2)] 2 5).length = [("a",1),("b",2)].length :=
  c3_amended_no_config_error [("a",1),("b",2)] 2 5 (by decide) (by decide)

/-- The chunk a non-empty window produces (total version of `windowChunk`). -/
def windowChunkD (w : List (String × Nat)) : Nat × String :=
  ((w.headD ("", 0)).2, joinWords (w.map Prod.fst))

lemma filterMap_windowChunk_eq_map :
    ∀ W : List (List (String × Nat)), (∀ w ∈ W, w ≠ []) →
      W.filterMap windowChunk = W.map windowChunkD
  | [], _ => rfl
  | w :: rest, hall => by
    rw [List.filterMap_cons, List.map_cons]
    match w, hall w (by simp) with
    | (x, p) :: tail, _ =>
      rw [filterMap_windowChunk_eq_map rest (fun v hv => hall v (by simp [hv]))]
      rfl

/-- **C5, confirmed.** For every input `(token, page)` sequence and every
valid configuration, every emitted chunk's page number is the page of the
first token of the window it was built from, and its text is the
space-joined words of that window. -/
theorem c5_chunk_page_is_first_token_page (ws : List (String × Nat))
    (tokens overlap : Int) (hov : 0 ≤ overlap) (hlt : overlap < tokens)
    (chunks : List (Nat × String))
    (hc : chunks_from_pdf ws tokens overlap = some chunks)
    (j : Nat) (c : Nat × String) (hcj : chunks.get? j = some c) :
    ∃ w, (chunkWindows ws tokens.toNat (tokens - overlap).toNat).get? j = some w ∧
      ∃ hne : w ≠ [], c.1 = (w.head hne).2 ∧ c.2 = joinWords (w.map Prod.fst) := by
  have heq := chunks_from_pdf_eq_windows ws tokens overlap hov hlt
  rw [hc] at heq
  set W := chunkWindows ws tokens.toNat (tokens - overlap).toNat with hW
  have hall : ∀ w ∈ W, w ≠ [] :=
    chunkWindows_ne_nil ws tokens.toNat (tokens - overlap).toNat (by omega) (by omega)
  have hchunks : chunks = W.map windowChunkD := by
    rw [Option.some.inj heq, filterMap_windowChunk_eq_map W hall]
  rw [hchunks, List.get?_map] at hcj
  rcases hWj : W.get? j with _ | w
  · rw [hWj] at hcj; exact absurd hcj (by simp)
  · rw [hWj] at hcj
    have hcw : c = windowChunkD w := by
      simp only [Option.map_some'] at hcj
      exact (Option.some.inj hcj).symm
    have hwmem : w ∈ W := List.get?_mem hWj
    refine ⟨w, rfl, hall w hwmem, ?_, ?_⟩
    · match w, hall w hwmem with
      | (x, p) :: tail, _ => rw [hcw]; rfl
    · match w, hall w hwmem with
      | (x, p) :: tail, _ => rw [hcw]; rfl

/-- Concrete instantiation of `c5_chunk_page_is_first_token_page` at the
spec's scenario, second chunk. -/
theorem c5_chunk_page_is_first_token_page_witness :
    ∃ w, (chunkWindows [("a",1),("b",1),("c",2),("d",2),("e",3)]
        ((3 : Int)).toNat ((3 : Int) - 1).toNat).get? 1 = some w ∧
      ∃ hne : w ≠ [], ((2 : Nat), "c d e").1 = (w.head hne).2
        ∧ ((2 : Nat), "c d e").2 = joinWords (w.map Prod.fst) :=
  c5_chunk_page_is_first_token_page [("a",1),("b",1),("c",2),("d",2),("e",3)] 3 1
    (by decide) (by decide) [(1, "a b c"), (2, "c d e"), (3, "e")] rfl 1 (2, "c d e") rfl

/-- **C6, confirmed.** For every token sequence and every valid
`(chunk_size, overlap)` with `overlap < chunk_size`, the emitted chunks are
exactly the non-empty windows, and concatenating those token windows after
dropping the first `overlap` tokens of every window except the first
reconstructs the original token sequence. -/
theorem c6_roundtrip_modulo_overlap (ws : List (String × Nat)) (tokens overlap : Int)
    (hov : 0 ≤ overlap) (hlt : overlap < tokens) :
    chunks_from_pdf ws tokens overlap
      = some ((chunkWindows ws tokens.toNat (tokens - overlap).toNat).filterMap windowChunk)
    ∧ dropOverlapJoin overlap.toNat
        (chunkWindows ws tokens.toNat (tokens - overlap).toNat) = ws := by
  refine ⟨chunks_from_pdf_eq_windows ws tokens overlap hov hlt, ?_⟩
  exact dropOverlapJoin_chunkWindows tokens.toNat (tokens - overlap).toNat overlap.toNat
    (by omega) (by omega) ws.length ws le_rfl

theorem c6_roundtrip_modulo_overlap_witness :
    chunks_from_pdf [("a",1),("b",1),("c",2),("d",2),("e",3)] 3 1
      = some ((chunkWindows [("a",1),("b",1),("c",2),("d",2),("e",3)]
          ((3 : Int)).toNat ((3 : Int) - 1).toNat).filterMap windowChunk)
    ∧ dropOverlapJoin ((1 : Int)).toNat
        (chunkWindows [("a",1),("b",1),("c",2),("d",2),("e",3)]
          ((3 : Int)).toNat ((3 : Int) - 1).toNat)
        = [("a",1),("b",1),("c",2),("d",2),("e",3)] :=
  c6_roundtrip_modulo_overlap [("a",1),("b",1),("c",2),("d",2),("e",3)] 3 1
    (by decide) (by decide)

/-! ## Retriever
(src/05-querying-with-vectors/lab/interactive-version/search_assistant.py)

`search_similar` builds and executes

```sql
SELECT name, item_data->>'subject' as subject,
       ROUND((embedding <op> %s)::numeric, 4) as similarity
FROM items
[WHERE embedding <op> %s < %s [AND item_data->>'subject' = %s]]
ORDER BY embedding <op> %s
LIMIT %s
```

wrapped in two `try/except` blocks that both swallow the error and
`return []`.  The store collaborator (Postgres + pgvector) is modelled by an
explicit row list and a distance function `dist` (the semantics of the
chosen `<=>`/`<->`/`<#>` operator); embedding coordinates are `ℚ`. -/

structure SearchResult where
  name : String
  subject : String
  similarity : ℚ
deriving DecidableEq, Repr

structure ItemRow where
  name : String
  subject : Option String
  embedding : List ℚ
deriving DecidableEq, Repr

/-- pgvector's `<#>` operator: the negative inner product. -/
def negInnerProduct (v w : List ℚ) : ℚ :=
  -(((v.zip w).map (fun p => p.1 * p.2)).sum)

/-- Postgres `ROUND(x::numeric, 4)`: half away from zero at 4 decimals. -/
def pgRound4 (x : ℚ) : ℚ :=
  if 0 ≤ x then ((⌊x * 10000 + 1/2⌋ : Int) : ℚ) / 10000
  else -(((⌊-x * 10000 + 1/2⌋ : Int) : ℚ) / 10000)

/-- The store's evaluation of the SQL built by `search_similar`: threshold
and subject filters (`WHERE … <op> … < %s AND item_data->>'subject' = %s`),
ascending sort by the distance operator, then `LIMIT`.  A negative `LIMIT`
is a Postgres error. -/
def runItemsQuery (items : List ItemRow) (dist : List ℚ → List ℚ → ℚ)
    (q : List ℚ) (limit : Int) (threshold : Option ℚ)
    (subject_filter : Option String) : Except String (List SearchResult) :=
  if limit < 0 then Except.error "LIMIT must not be negative"
  else
    let kept := items.filter (fun r =>
      (match threshold with
       | some t => decide (dist r.embedding q < t)
       | none => true)
      && (match subject_filter with
          | some f => decide (r.subject = some f)
          | none => true))
    let sorted := kept.mergeSort (fun a b => decide (dist a.embedding q ≤ dist b.embedding q))
    Except.ok ((sorted.take limit.toNat).map (fun r =>
      ⟨r.name, r.subject.getD "Unknown", pgRound4 (dist r.embedding q)⟩))

/-- The observable outcome of one `search_similar` call: the returned list
and whether a query was sent to the store at all. -/
structure SearchCall where
  results : List SearchResult
  storeQueried : Bool
deriving DecidableEq, Repr

/-- `VectorSearchAssistant.search_similar`.  The embedding collaborator's
outcome is passed in (`Except.error` models the raised exception caught by
the first `try/except`, which prints and `return []` without touching the
store); a store error is caught by the second `try/except`, which also
`return []` after the query was executed. -/
def search_similar (embed_result : Except String (List ℚ))
    (items : List ItemRow) (dist : List ℚ → List ℚ → ℚ)
    (limit : Int) (threshold : Option ℚ) (subject_filter : Option String) :
    SearchCall :=
  match embed_result with
  | Except.error _ => ⟨[], false⟩
  | Except.ok q =>
    match runItemsQuery items dist q limit threshold subject_filter with
    | Except.error _ => ⟨[], true⟩
    | Except.ok rs => ⟨rs, true⟩

/-- `get_embedding` of `src/04-chunking-pdfs/lab/solution/utils.py`: on a
failed Ollama request it prints and returns a 1024-dimensional zero vector
instead of propagating the failure. -/
def get_embedding (response : Except String (List ℚ)) : List ℚ :=
  match response with
  | Except.ok v => v
  | Except.error _ => List.replicate 1024 0

/-! ## Claim theorems about the Retriever -/

/-- **C1, counterexample.** One stored row whose embedding equals the query
embedding (inner-product distance exactly `0`), searched with
`threshold = 0`: the row is *excluded* — the result set is empty, not the
full store — because the generated SQL compares `embedding <op> %s < %s`
with a strict `<`. -/
theorem c1_counterexample_boundary_row_dropped :
    (search_similar (Except.ok [0]) [⟨"item", none, [0]⟩] negInnerProduct
        5 (some 0) none).results = []
    ∧ ([] : List SearchResult) ≠ [⟨"item", "Unknown", 0⟩] := by
  refine ⟨?_, by decide⟩
  norm_num [search_similar, runItemsQuery, negInnerProduct, List.mergeSort_nil]

lemma mem_take_mergeSort_map {α β : Type _} (f : α → β) (le : α → α → Bool)
    (l : List α) (n : Nat) (hlen : l.length ≤ n) {a : α} (ha : a ∈ l) :
    f a ∈ ((l.mergeSort le).take n).map f := by
  have hsl : (l.mergeSort le).length ≤ n := by
    rw [(List.mergeSort_perm _ _).length_eq]
    exact hlen
  rw [List.take_of_length_le hsl]
  exact List.mem_map_of_mem f (List.mem_mergeSort.2 ha)

/-- **C1, amended.** The threshold filter is strict in the other direction:
a stored row is retained only when its distance is strictly *below* the
threshold; a row whose distance equals the threshold is dropped, and when
every stored row sits exactly at the threshold (e.g. `threshold = 0` with
all vectors identical to the query) the result set is empty. -/
theorem c1_amended_strict_threshold (items : List ItemRow)
    (dist : List ℚ → List ℚ → ℚ) (q : List ℚ) (t : ℚ) (limit : Int)
    (sf : Option String) :
    (∀ res ∈ (search_similar (Except.ok q) items dist limit (some t) sf).results,
        ∃ r ∈ items, dist r.embedding q < t ∧ res.name = r.name
          ∧ res.similarity = pgRound4 (dist r.embedding q))
    ∧ ((∀ r ∈ items, dist r.embedding q = t) →
        (search_similar (Except.ok q) items dist limit (some t) sf).results = [])
    ∧ (∀ r ∈ items, dist r.embedding q < t →
        (match sf with | some f => r.subject = some f | none => True) →
        0 ≤ limit → items.length ≤ limit.toNat →
        ∃ res ∈ (search_similar (Except.ok q) items dist limit (some t) sf).results,
          res.name = r.name ∧ res.similarity = pgRound4 (dist r.embedding q)) := by
  by_cases hneg : limit < 0
  · refine ⟨?_, ?_, ?_⟩
    · intro res hres
      simp only [search_similar, runItemsQuery, if_pos hneg] at hres
      exact absurd hres (by simp)
    · intro _
      simp only [search_similar, runItemsQuery, if_pos hneg]
    · intro r _ _ _ hlim0 _
      omega
  · have hrun : search_similar (Except.ok q) items dist limit (some t) sf
        = ⟨((((items.filter (fun r =>
              decide (dist r.embedding q < t)
              && (match sf with
                  | some f => decide (r.subject = some f)
                  | none => true))).mergeSort
                (fun a b => decide (dist a.embedding q ≤ dist b.embedding q))).take
                  limit.toNat).map (fun r =>
                    ⟨r.name, r.subject.getD "Unknown", pgRound4 (dist r.embedding q)⟩)),
            true⟩ := by
      simp only [search_similar, runItemsQuery, if_neg hneg]
    refine ⟨?_, ?_, ?_⟩
    · intro res hres
      rw [hrun] at hres
      simp only [List.mem_map] at hres
      obtain ⟨r, hrmem, rfl⟩ := hres
      have hr2 : r ∈ (items.filter _).mergeSort _ := List.mem_of_mem_take hrmem
      rw [List.mem_mergeSort] at hr2
      have hr3 := List.mem_filter.1 hr2
      refine ⟨r, hr3.1, ?_, rfl, rfl⟩
      have := hr3.2
      simp only [Bool.and_eq_true, decide_eq_true_eq] at this
      exact this.1
    · intro hall
      rw [hrun]
      have hfil : items.filter (fun r =>
          decide (dist r.embedding q < t)
          && (match sf with
              | some f => decide (r.subject = some f)
              | none => true)) = [] := by
        rw [List.filter_eq_nil]
        intro r hr
        simp only [Bool.and_eq_true, decide_eq_true_eq, not_and]
        intro hlt
        exact absurd (hall r hr ▸ hlt) (lt_irrefl t)
      rw [hfil]
      simp [List.mergeSort_nil]
    · intro r hr hlt hsf hlim0 hlen
      rw [hrun]
      refine ⟨_, mem_take_mergeSort_map _ _ _ _ ?_ ?_, rfl, rfl⟩
      · exact le_trans (List.length_filter_le _ _) hlen
      · rw [List.mem_filter]
        refine ⟨hr, ?_⟩
        simp only [Bool.and_eq_true, decide_eq_true_eq]
        refine ⟨hlt, ?_⟩
        match sf, hsf with
        | some f, hsf => simpa using hsf
        | none, _ => simp

/-- Concrete instantiation of `c1_amended_strict_threshold`: one row at
distance exactly the threshold `0` yields the empty result set. -/
theorem c1_amended_strict_threshold_witness :
    (search_similar (Except.ok [0]) [⟨"item", none, [0]⟩] negInnerProduct
        5 (some 0) none).results = [] :=
  (c1_amended_strict_threshold [⟨"item", none, [0]⟩] negInnerProduct [0] 0 5 none).2.1
    (by intro r hr; fin_cases hr; norm_num [negInnerProduct])

/-- **C4, counterexample.** A retrieval call whose embedding collaborator
fails returns the plain empty list — byte-for-byte the same value an
ordinary successful search over an empty store returns — rather than a
distinguishable failure outcome. -/
theorem c4_counterexample_failure_swallowed :
    (search_similar (Except.error "Failed to connect to Ollama")
        [⟨"item", none, [0]⟩] negInnerProduct 5 none none).results = []
    ∧ (search_similar (Except.ok [0]) ([] : List ItemRow) negInnerProduct
        5 none none).results = [] := by
  refine ⟨rfl, ?_⟩
  simp [search_similar, runItemsQuery, List.mergeSort_nil]

/-- **C4, amended.** When the query embedding call fails, `search_similar`
catches the exception and returns the ordinary empty result list (no error
outcome; the store is simply never queried), and the solution
`get_embedding` goes further and substitutes a 1024-dimensional zero vector
for the failed embedding even when it is a query embedding. -/
theorem c4_amended_failure_returns_empty (items : List ItemRow)
    (dist : List ℚ → List ℚ → ℚ) (limit : Int) (t : Option ℚ)
    (sf : Option String) (e : String) :
    search_similar (Except.error e) items dist limit t sf = ⟨[], false⟩
    ∧ get_embedding (Except.error e) = List.replicate 1024 0 :=
  ⟨rfl, rfl⟩

/-- **C8, counterexample.** With `limit = 0` the call does *not* skip the
store: the SQL is executed (with `LIMIT 0`), so the store is contacted even
though the result set is empty. -/
theorem c8_counterexample_store_roundtrip_at_zero_limit :
    ¬ (search_similar (Except.ok [0]) [⟨"item", none, [0]⟩] negInnerProduct
        0 none none).storeQueried = false
    ∧ (search_similar (Except.ok [0]) [⟨"item", none, [0]⟩] negInnerProduct
        0 none none).results = [] := by
  refine ⟨by decide, rfl⟩

/-- **C8, amended.** `search_similar` has no `limit ≤ 0` guard: for every
non-positive limit it still sends the query to the store and ends up with an
empty result list — via `LIMIT 0` returning no rows when `limit = 0`, and
via a store error (negative `LIMIT`) caught and turned into `[]` when
`limit < 0`. -/
theorem c8_amended_no_guard_store_still_queried (items : List ItemRow)
    (dist : List ℚ → List ℚ → ℚ) (q : List ℚ) (t : Option ℚ)
    (sf : Option String) (limit : Int) (hlim : limit ≤ 0) :
    search_similar (Except.ok q) items dist limit t sf = ⟨[], true⟩ := by
  rcases lt_or_eq_of_le hlim with hlt | heq
  · simp only [search_similar, runItemsQuery, if_pos hlt]
  · subst heq
    simp only [search_similar, runItemsQuery]
    norm_num

theorem c8_amended_no_guard_store_still_queried_witness :
    search_similar (Except.ok [0]) [⟨"item", none, [0]⟩] negInnerProduct 0 none none
      = ⟨[], true⟩ :=
  c8_amended_no_guard_store_still_queried [⟨"item", none, [0]⟩] negInnerProduct
    [0] none none 0 (by decide)

/-! ## Persistence (src/z-possible-final-workflow/01a-parse-with-json-field.py)

`persist_chunks_to_db` executes, per chunk,

```sql
INSERT INTO docs (id, pdf_id, page, text, embedding, metadata)
VALUES (%s, %s, %s, %s, %s, %s)
ON CONFLICT (id) DO NOTHING;
```

against the `docs` table whose primary key is `id`. -/

/-- A chunk as assembled by the ingestion workflow before persisting;
`metadata` is the `{chunk_length, type}` JSON object. -/
structure IngestChunk where
  id : String
  page : Nat
  text : String
  embedding : List ℚ
  metadata : Nat × String
deriving DecidableEq, Repr

/-- A row of the `docs` table. -/
structure DocRow where
  id : String
  pdf_id : String
  page : Nat
  text : String
  embedding : List ℚ
  metadata : Nat × String
deriving DecidableEq, Repr

/-- Postgres execution of the ingestion INSERT against `docs` (primary key
`id`).  `onConflictDoNothing = true` is the `ON CONFLICT (id) DO NOTHING`
form used by `persist_chunks_to_db`; `false` is the bare `INSERT` used by
`pdf_processor.py`'s `ingest_pdf`, which raises a unique-key violation on a
duplicate. -/
def pgInsertDocs (onConflictDoNothing : Bool) (table : List DocRow) (row : DocRow) :
    Except String (List DocRow) :=
  if table.any (fun r => decide (r.id = row.id)) then
    if onConflictDoNothing then Except.ok table
    else Except.error "duplicate key value violates unique constraint"
  else Except.ok (table ++ [row])

/-- `persist_chunks_to_db`: one `ON CONFLICT (id) DO NOTHING` insert per
chunk, in order; a raised database error aborts the loop. -/
def persist_chunks_to_db (table : List DocRow) (chunks : List IngestChunk)
    (pdf_id : String) : Except String (List DocRow) :=
  chunks.foldlM (fun t c =>
    pgInsertDocs true t ⟨c.id, pdf_id, c.page, c.text, c.embedding, c.metadata⟩) table

/-- **C9, confirmed.** Inserting a chunk whose `id` is already present in
the store is a no-op: the table (row count and every existing row's
contents) is returned unchanged and no error is raised, both for the single
insert and for a `persist_chunks_to_db` call carrying that chunk. -/
theorem c9_duplicate_id_insert_is_noop (table : List DocRow) (c : IngestChunk)
    (pdf_id : String) (hdup : ∃ r ∈ table, r.id = c.id) :
    pgInsertDocs true table ⟨c.id, pdf_id, c.page, c.text, c.embedding, c.metadata⟩
      = Except.ok table
    ∧ persist_chunks_to_db table [c] pdf_id = Except.ok table := by
  have hany : table.any (fun r => decide (r.id = c.id)) = true := by
    rw [List.any_eq_true]
    obtain ⟨r, hr, hid⟩ := hdup
    exact ⟨r, hr, by simpa using hid⟩
  have hins : pgInsertDocs true table ⟨c.id, pdf_id, c.page, c.text, c.embedding, c.metadata⟩
      = Except.ok table := by
    unfold pgInsertDocs
    rw [if_pos hany]
    rfl
  refine ⟨hins, ?_⟩
  simp only [persist_chunks_to_db, List.foldlM, hins]
  rfl

theorem c9_duplicate_id_insert_is_noop_witness :
    pgInsertDocs true [⟨"c1", "old.pdf", 1, "old text", [1], (8, "rule_or_definition")⟩]
        ⟨"c1", "new.pdf", 2, "new text", [2], (8, "rule_or_definition")⟩
      = Except.ok [⟨"c1", "old.pdf", 1, "old text", [1], (8, "rule_or_definition")⟩]
    ∧ persist_chunks_to_db [⟨"c1", "old.pdf", 1, "old text", [1], (8, "rule_or_definition")⟩]
        [⟨"c1", 2, "new text", [2], (8, "rule_or_definition")⟩] "new.pdf"
      = Except.ok [⟨"c1", "old.pdf", 1, "old text", [1], (8, "rule_or_definition")⟩] :=
  c9_duplicate_id_insert_is_noop
    [⟨"c1", "old.pdf", 1, "old text", [1], (8, "rule_or_definition")⟩]
    ⟨"c1", 2, "new text", [2], (8, "rule_or_definition")⟩ "new.pdf"
    ⟨⟨"c1", "old.pdf", 1, "old text", [1], (8, "rule_or_definition")⟩, by simp, rfl⟩

/-! ## Metadata classification
(src/z-possible-final-workflow/01a-parse-with-json-field.py, `classify_chunk`) -/

def LEGAL_CLAUSE_SPLITTERS : List String :=
  ["Provided however", "Except as", "Notwithstanding"]

/-- Python's `str.lower()` (per-character lowercasing). -/
def pyToLower (s : String) : String := ⟨s.data.map Char.toLower⟩

/-- Python's substring test `needle in hay`. -/
def strIn (needle hay : String) : Bool :=
  (List.range (hay.toList.length + 1)).any
    (fun i => needle.toList.isPrefixOf (hay.toList.drop i))

/-- `classify_chunk`:

```python
if any(signal.lower() in text.lower() for signal in LEGAL_CLAUSE_SPLITTERS):
    return "exception_clause"
elif "{{ TABLE" in text:
    return "table_reference"
elif "{{ PAGE_IMAGE" in text:
    return "page_image_reference"
else:
    return "rule_or_definition"
``` -/
def classify_chunk (text : String) : String :=
  if LEGAL_CLAUSE_SPLITTERS.any (fun signal => strIn (pyToLower signal) (pyToLower text)) then
    "exception_clause"
  else if strIn "\x7b\x7b TABLE" text then "table_reference"
  else if strIn "\x7b\x7b PAGE_IMAGE" text then "page_image_reference"
  else "rule_or_definition"

/-- **C10, confirmed.** Every chunk text gets exactly one of the four
labels, with the fixed precedence: a case-insensitive occurrence of one of
the three legal-clause phrases forces `exception_clause` regardless of any
placeholder also present; otherwise a `\x7b\x7b TABLE` occurrence gives
`table_reference`; otherwise a `\x7b\x7b PAGE_IMAGE` occurrence gives
`page_image_reference`; otherwise `rule_or_definition`. -/
theorem c10_classification_precedence (text : String) :
    (classify_chunk text = "exception_clause"
      ∨ classify_chunk text = "table_reference"
      ∨ classify_chunk text = "page_image_reference"
      ∨ classify_chunk text = "rule_or_definition")
    ∧ ((strIn "provided however" (pyToLower text) ∨ strIn "except as" (pyToLower text)
          ∨ strIn "notwithstanding" (pyToLower text)) →
        classify_chunk text = "exception_clause")
    ∧ (¬(strIn "provided however" (pyToLower text) ∨ strIn "except as" (pyToLower text)
          ∨ strIn "notwithstanding" (pyToLower text)) → strIn "\x7b\x7b TABLE" text →
        classify_chunk text = "table_reference")
    ∧ (¬(strIn "provided however" (pyToLower text) ∨ strIn "except as" (pyToLower text)
          ∨ strIn "notwithstanding" (pyToLower text)) → ¬strIn "\x7b\x7b TABLE" text →
        strIn "\x7b\x7b PAGE_IMAGE" text →
        classify_chunk text = "page_image_reference")
    ∧ (¬(strIn "provided however" (pyToLower text) ∨ strIn "except as" (pyToLower text)
          ∨ strIn "notwithstanding" (pyToLower text)) → ¬strIn "\x7b\x7b TABLE" text →
        ¬strIn "\x7b\x7b PAGE_IMAGE" text →
        classify_chunk text = "rule_or_definition") := by
  have hlegal : (LEGAL_CLAUSE_SPLITTERS.any (fun signal => strIn (pyToLower signal) (pyToLower text))
        = true)
      ↔ (strIn "provided however" (pyToLower text) ∨ strIn "except as" (pyToLower text)
          ∨ strIn "notwithstanding" (pyToLower text)) := by
    have h1 : pyToLower "Provided however" = "provided however" := by decide
    have h2 : pyToLower "Except as" = "except as" := by decide
    have h3 : pyToLower "Notwithstanding" = "notwithstanding" := by decide
    simp [LEGAL_CLAUSE_SPLITTERS, h1, h2, h3]
  unfold classify_chunk
  by_cases hL : LEGAL_CLAUSE_SPLITTERS.any (fun signal => strIn (pyToLower signal) (pyToLower text))
  · rw [if_pos hL]
    refine ⟨Or.inl rfl, fun _ => rfl, fun hnl _ => absurd (hlegal.1 hL) hnl,
      fun hnl _ _ => absurd (hlegal.1 hL) hnl, fun hnl _ _ => absurd (hlegal.1 hL) hnl⟩
  · rw [if_neg hL]
    have hnl : ¬(strIn "provided however" (pyToLower text) ∨ strIn "except as" (pyToLower text)
        ∨ strIn "notwithstanding" (pyToLower text)) := fun h => hL (hlegal.2 h)
    by_cases hT : strIn "\x7b\x7b TABLE" text
    · rw [if_pos hT]
      refine ⟨Or.inr (Or.inl rfl), fun h => absurd h hnl, fun _ _ => rfl,
        fun _ hnt _ => absurd hT hnt, fun _ hnt _ => absurd hT hnt⟩
    · rw [if_neg hT]
      by_cases hP : strIn "\x7b\x7b PAGE_IMAGE" text
      · rw [if_pos hP]
        refine ⟨Or.inr (Or.inr (Or.inl rfl)), fun h => absurd h hnl,
          fun _ ht => absurd ht hT, fun _ _ _ => rfl, fun _ _ hnp => absurd hP hnp⟩
      · rw [if_neg hP]
        refine ⟨Or.inr (Or.inr (Or.inr rfl)), fun h => absurd h hnl,
          fun _ ht => absurd ht hT, fun _ _ hp => absurd hp hP, fun _ _ _ => rfl⟩

/-- Concrete instantiation of `c10_classification_precedence`: a chunk
containing both a legal phrase and a table placeholder is classified
`exception_clause` (precedence), via the theorem itself. -/
theorem c10_classification_precedence_witness :
    classify_chunk "Notwithstanding the table \x7b\x7b TABLE_PAGE_2_1 \x7d\x7d"
      = "exception_clause" :=
  (c10_classification_precedence
      "Notwithstanding the table \x7b\x7b TABLE_PAGE_2_1 \x7d\x7d").2.1
    (Or.inr (Or.inr (by decide)))

/-! ## Structural pre-processing and paragraph chunking
(src/z-possible-final-workflow/01a-parse-with-json-field.py,
`parse_pdf` and `chunk_text`)

These functions work on Python strings; they are modelled here on `List
Char` so the regular-expression operations (`re.sub` with a literal
pattern, `re.split(r"\n\s*\n", …)`, `str.replace`, `str.strip`) can be
given explicit recursive definitions. -/

/-- Characters matched by Python's `str.strip()` / `\s` (ASCII range). -/
def isPySpace (c : Char) : Bool :=
  c = ' ' || c = '\t' || c = '\n' || c = '\r' || c = '\x0b' || c = '\x0c'

/-- Python `str.strip()`. -/
def stripChars (s : List Char) : List Char :=
  ((s.dropWhile isPySpace).reverse.dropWhile isPySpace).reverse

/-- `"### LEGAL_SPLIT_POINT ###"` — the marker tested with `startswith` and
removed with `str.replace` in `chunk_text`. -/
def SPLIT_MARK : List Char := "### LEGAL_SPLIT_POINT ###".data

/-- The full text inserted by the `re.sub` replacement
`r"\n\n### LEGAL_SPLIT_POINT ### \1"` in front of the matched clause. -/
def markerIns : List Char := '\n' :: '\n' :: (SPLIT_MARK ++ [' '])

/-- Case-insensitive literal match at the head (`re.IGNORECASE`). -/
def lowPrefix (pat s : List Char) : Bool :=
  (pat.map Char.toLower).isPrefixOf (s.map Char.toLower)

/-- `re.sub(f"({signal})", r"\n\n### LEGAL_SPLIT_POINT ### \1", text,
flags=re.IGNORECASE)` for the literal, newline-free signal `c0 :: sig`:
left-to-right scan, each (case-insensitive) occurrence is prefixed with the
marker and kept verbatim (`\1`). -/
def subSignal (c0 : Char) (sig : List Char) : List Char → List Char
  | [] => []
  | c :: rest =>
    if lowPrefix (c0 :: sig) (c :: rest) then
      markerIns ++ (c :: rest).take (sig.length + 1)
        ++ subSignal c0 sig ((c :: rest).drop (sig.length + 1))
    else c :: subSignal c0 sig rest
termination_by s => s.length
decreasing_by
  · simp only [List.length_drop, List.length_cons]; omega
  · simp only [List.length_cons]; omega

/-- The `for signal in LEGAL_CLAUSE_SPLITTERS: text = re.sub(…)` loop of
`chunk_text`, in source order. -/
def markLegal (s : List Char) : List Char :=
  subSignal 'N' "otwithstanding".data
    (subSignal 'E' "xcept as".data
      (subSignal 'P' "rovided however".data s))

lemma takeWhile_length_le (p : Char → Bool) (l : List Char) :
    (l.takeWhile p).length ≤ l.length := by
  induction l with
  | nil => simp
  | cons a l ih =>
    by_cases h : p a <;> simp [List.takeWhile_cons, h] <;> omega

/-- Index (within `l`) of the last `'\n'`, if any. -/
def lastNewlinePos (l : List Char) : Option Nat :=
  match l with
  | [] => none
  | c :: rest =>
    match lastNewlinePos rest with
    | some j => some (j + 1)
    | none => if c = '\n' then some 0 else none

/-- The scan loop of `re.split(r"\n\s*\n", …)`: a separator is a leftmost,
greedy match — a `'\n'`, then the longest whitespace run still followed by a
final `'\n'`. -/
def goSplit : List Char → List Char → List (List Char)
  | [], acc => [acc.reverse]
  | c :: rest, acc =>
    if c = '\n' then
      match lastNewlinePos (rest.takeWhile isPySpace) with
      | some j => acc.reverse :: goSplit (rest.drop (j + 1)) []
      | none => goSplit rest (c :: acc)
    else goSplit rest (c :: acc)
termination_by s _ => s.length
decreasing_by
  · simp only [List.length_drop, List.length_cons]
    have := takeWhile_length_le isPySpace rest
    omega
  · simp only [List.length_cons]; omega
  · simp only [List.length_cons]; omega

/-- `re.split(r"\n\s*\n", text.strip())` as used by `chunk_text`. -/
def splitParas (s : List Char) : List (List Char) :=
  goSplit (stripChars s) []

/-- Python `str.replace(p0 :: pt, "")`: remove every (left-to-right,
non-overlapping) occurrence. -/
def removeAll (p0 : Char) (pt : List Char) : List Char → List Char
  | [] => []
  | c :: rest =>
    if (p0 :: pt).isPrefixOf (c :: rest) then
      removeAll p0 pt ((c :: rest).drop (pt.length + 1))
    else c :: removeAll p0 pt rest
termination_by s => s.length
decreasing_by
  · simp only [List.length_drop, List.length_cons]; omega
  · simp only [List.length_cons]; omega

/-- A chunk emitted by `chunk_text`: the source dict `{"id": uuid4(),
"page": …, "text": …}` minus the `id`, whose generation is an external
randomness collaborator. -/
structure TextChunk where
  page : Nat
  text : List Char
deriving DecidableEq, Repr

/-- `"\n\n".join(current_chunk)`. -/
def joinParas (ps : List (List Char)) : List Char :=
  List.intercalate ('\n' :: '\n' :: []) ps

/-- The paragraph loop of `chunk_text`: a paragraph whose stripped form
starts with the marker flushes the current chunk and starts a new one from
the paragraph with all markers removed and re-stripped; other paragraphs
are appended to the current chunk; a final non-empty chunk is flushed. -/
def chunkLoop (page : Nat) : List (List Char) → List (List Char) → List TextChunk
  | [], current => if current.isEmpty then [] else [⟨page, joinParas current⟩]
  | para :: rest, current =>
    if SPLIT_MARK.isPrefixOf (stripChars para) then
      (if current.isEmpty then [] else [⟨page, joinParas current⟩])
        ++ chunkLoop page rest [stripChars (removeAll '#' SPLIT_MARK.tail para)]
    else chunkLoop page rest (current ++ [para])

/-- `chunk_text(text, page_number)`. -/
def chunk_text (text : List Char) (page : Nat) : List TextChunk :=
  chunkLoop page (splitParas (markLegal text)) []

/-! ### `parse_pdf`: pages, structural artifacts and placeholder tokens -/

/-- Decimal digits of `n`, most significant first — Python `str(n)` /
`f"{n}"` for a non-negative integer. -/
def natDigits (n : Nat) : List Char :=
  if n < 10 then [Char.ofNat (48 + n)]
  else natDigits (n / 10) ++ [Char.ofNat (48 + n % 10)]
termination_by n
decreasing_by
  exact Nat.div_lt_self (by omega) (by omega)

/-- `f"{{{{ TABLE_PAGE_{page_num}_{i} }}}}"`. -/
def tablePlaceholder (page_num i : Nat) : List Char :=
  "\x7b\x7b TABLE_PAGE_".data ++ natDigits page_num ++ ('_' :: natDigits i) ++ " \x7d\x7d".data

/-- `f"{{{{ PAGE_IMAGE_{page_num} }}}}"` (built by `render_page_as_image`). -/
def pageImagePlaceholder (page_num : Nat) : List Char :=
  "\x7b\x7b PAGE_IMAGE_".data ++ natDigits page_num ++ " \x7d\x7d".data

/-- A parsed PDF page as the out-of-scope pdfplumber collaborator delivers
it: the `page_has_diagram` verdict, `page.extract_text() or ""`, and the
extracted tables' contents (`page.extract_tables()`). -/
structure PdfPage where
  hasDiagram : Bool
  text : List Char
  tables : List (List (List (Option String)))
deriving DecidableEq, Repr

/-- A `document_objects` entry of `parse_pdf` (the `path` of a rendered
page image, produced by the file-system collaborator, is omitted). -/
inductive DocObject where
  | pageImage (page : Nat) (placeholder : List Char)
  | table (page : Nat) (content : List (List (Option String))) (placeholder : List Char)
  | text (page : Nat) (content : List Char)
deriving DecidableEq, Repr

/-- The page text after `parse_pdf`'s table loop ran
`text += f"\n\n{placeholder}"` once per extracted table. -/
def pageTextWithPlaceholders (base : List Char) (page_num numTables : Nat) : List Char :=
  base ++ ((List.range numTables).map
    (fun k => '\n' :: '\n' :: tablePlaceholder page_num (k + 1))).flatten

/-- `parse_pdf`, over the list of pages the pdfplumber collaborator
extracted: pages are enumerated from 1; a diagram page contributes a
`page_image` record; each table contributes a `table` record (tables
enumerated from 1 within the page) and appends its placeholder to the page
text; finally the page's `text` record carries the placeholder-augmented
text. -/
def parseBlock (pr : Nat × PdfPage) : List DocObject :=
  (if pr.2.hasDiagram then [DocObject.pageImage pr.1 (pageImagePlaceholder pr.1)] else [])
    ++ (List.enumFrom 1 pr.2.tables).map
        (fun tp => DocObject.table pr.1 tp.2 (tablePlaceholder pr.1 tp.1))
    ++ [DocObject.text pr.1 (pageTextWithPlaceholders pr.2.text pr.1 pr.2.tables.length)]

def parse_pdf (pages : List PdfPage) : List DocObject :=
  (List.enumFrom 1 pages).flatMap parseBlock

/-- The placeholder carried by a structural-artifact record (`none` for a
page's `text` record). -/
def objPlaceholder : DocObject → Option (List Char)
  | DocObject.pageImage _ plh => some plh
  | DocObject.table _ _ plh => some plh
  | DocObject.text _ _ => none

/-- The page number of a `document_objects` record. -/
def objPage : DocObject → Nat
  | DocObject.pageImage pg _ => pg
  | DocObject.table pg _ _ => pg
  | DocObject.text pg _ => pg

/-! ### Occurrence counting

`cntOcc ph s` counts the positions of `s` at which the token `ph` occurs
(all positions, including overlapping ones — the tokens we count are never
self-overlapping anyway). -/

def cntOcc (ph : List Char) : List Char → Nat
  | [] => if ph.isPrefixOf [] then 1 else 0
  | c :: rest => (if ph.isPrefixOf (c :: rest) then 1 else 0) + cntOcc ph rest

lemma cntOcc_nil_of_ne (ph : List Char) (hph : ph ≠ []) : cntOcc ph [] = 0 := by
  match ph, hph with
  | c :: tl, _ => simp [cntOcc, List.isPrefixOf]

lemma infix_iff_cntOcc_pos (ph s : List Char) : ph <:+: s ↔ 0 < cntOcc ph s := by
  induction s with
  | nil =>
    rw [cntOcc]
    constructor
    · intro h
      have : ph = [] := List.eq_nil_of_infix_nil h
      subst this
      simp [List.isPrefixOf]
    · intro h
      rcases hb : ph.isPrefixOf ([] : List Char) with _ | _
      · rw [hb] at h; simp at h
      · have := List.isPrefixOf_iff_prefix.1 hb
        exact this.isInfix
  | cons c rest ih =>
    rw [cntOcc, List.infix_cons_iff]
    constructor
    · rintro (h | h)
      · rw [if_pos (List.isPrefixOf_iff_prefix.2 h)]; omega
      · have := ih.1 h; omega
    · intro h
      by_cases hp : ph.isPrefixOf (c :: rest)
      · exact Or.inl (List.isPrefixOf_iff_prefix.1 hp)
      · rw [if_neg hp] at h
        simp only [Nat.zero_add] at h
        exact Or.inr (ih.2 h)

lemma cntOcc_eq_zero_of_mem_not_mem (ph s : List Char) (c : Char)
    (hc : c ∈ ph) (hs : c ∉ s) : cntOcc ph s = 0 := by
  by_contra h
  have hpos : 0 < cntOcc ph s := Nat.pos_of_ne_zero h
  have hinf := (infix_iff_cntOcc_pos ph s).2 hpos
  exact hs (hinf.subset hc)

/-- No occurrence of `ph` spans the boundary of `a ++ b`. -/
def NoSpan (ph a b : List Char) : Prop :=
  ∀ x y, ph = x ++ y → x ≠ [] → y ≠ [] → ¬(x <:+ a ∧ y <+: b)

lemma prefix_append_iff_of_nospan (ph a b : List Char) (hspan : NoSpan ph a b)
    (ha : a ≠ []) : ph <+: a ++ b ↔ ph <+: a := by
  constructor
  · intro h
    rcases le_or_lt ph.length a.length with hle | hgt
    · have h1 : ph = (a ++ b).take ph.length := List.prefix_iff_eq_take.1 h
      rw [List.take_append_eq_append_take, Nat.sub_eq_zero_of_le hle, List.take_zero,
        List.append_nil] at h1
      rw [h1]
      exact List.take_prefix _ _
    · exfalso
      have h2 : a <+: ph :=
        List.prefix_of_prefix_length_le (List.prefix_append _ _) h (by omega)
      obtain ⟨y, hy⟩ := h2
      have hyne : y ≠ [] := by
        intro h0
        subst h0
        rw [List.append_nil] at hy
        subst hy
        omega
      have hyb : y <+: b := by
        rw [← hy] at h
        exact (List.prefix_append_right_inj a).1 h
      exact hspan a y hy.symm ha hyne ⟨List.suffix_refl _, hyb⟩
  · intro h
    exact h.trans (List.prefix_append _ _)

lemma cntOcc_append (ph a b : List Char) (hph : ph ≠ []) (hspan : NoSpan ph a b) :
    cntOcc ph (a ++ b) = cntOcc ph a + cntOcc ph b := by
  induction a with
  | nil => rw [cntOcc_nil_of_ne ph hph]; simp
  | cons c a ih =>
    have hspan2 : NoSpan ph a b := by
      intro x y hxy hx hy hcontra
      exact hspan x y hxy hx hy ⟨hcontra.1.trans (List.suffix_cons c a), hcontra.2⟩
    rw [List.cons_append, cntOcc, cntOcc, ih hspan2]
    have hiff : ph <+: (c :: a) ++ b ↔ ph <+: (c :: a) :=
      prefix_append_iff_of_nospan ph (c :: a) b hspan (by simp)
    have hpref : ph.isPrefixOf (c :: (a ++ b)) = ph.isPrefixOf (c :: a) := by
      rw [Bool.eq_iff_iff, List.isPrefixOf_iff_prefix, List.isPrefixOf_iff_prefix]
      rw [← List.cons_append]
      exact hiff
    rw [hpref]
    omega

/-- Span-freedom when the head of `ph` does not occur in `a`. -/
lemma noSpan_of_head_not_mem (ph a b : List Char)
    (h : ∀ c, ph.head? = some c → c ∉ a) : NoSpan ph a b := by
  rintro x y hxy hx hy ⟨hxa, _⟩
  match x, hx with
  | cx :: xt, _ =>
    have hhead : ph.head? = some cx := by rw [hxy]; rfl
    exact h cx hhead (hxa.subset (by simp))

/-- Span-freedom when the head of `b` does not occur in `ph`. -/
lemma noSpan_of_headb_not_mem (ph a b : List Char)
    (h : ∀ c, b.head? = some c → c ∉ ph) : NoSpan ph a b := by
  rintro x y hxy hx hy ⟨_, hyb⟩
  match y, hy with
  | cy :: yt, _ =>
    have hheadb : b.head? = some cy := by
      obtain ⟨t, ht⟩ := hyb
      rw [← ht]
      rfl
    have hmem : cy ∈ ph := by
      rw [hxy]
      simp
    exact h cy hheadb hmem

/-- Span-freedom when the last element of `ph` does not occur in `b`. -/
lemma noSpan_of_last_not_mem (ph a b : List Char)
    (h : ∀ c, ph.getLast? = some c → c ∉ b) : NoSpan ph a b := by
  rintro x y hxy hx hy ⟨_, hyb⟩
  have hlast : ph.getLast? = y.getLast? := by
    rw [hxy, List.getLast?_append_of_ne_nil _ hy]
  match hyl : y.getLast? with
  | none => exact hy (List.getLast?_eq_none_iff.1 hyl)
  | some c =>
    have hcy : c ∈ y := by
      obtain ⟨hne2, hc⟩ := List.mem_getLast?_eq_getLast (show c ∈ y.getLast? by rw [hyl]; rfl)
      rw [hc]
      exact List.getLast_mem hne2
    exact h c (hlast ▸ hyl) (hyb.subset hcy)

/-! ### `str.strip()` preserves occurrence counts of tokens with
non-whitespace endpoints -/

lemma stripChars_decomp (s : List Char) :
    ∃ pre suf, s = pre ++ stripChars s ++ suf
      ∧ (∀ c ∈ pre, isPySpace c = true) ∧ (∀ c ∈ suf, isPySpace c = true) := by
  refine ⟨s.takeWhile isPySpace,
    (((s.dropWhile isPySpace).reverse.takeWhile isPySpace)).reverse, ?_, ?_, ?_⟩
  · have h1 : s = s.takeWhile isPySpace ++ s.dropWhile isPySpace :=
      (List.takeWhile_append_dropWhile isPySpace s).symm
    have h2 : s.dropWhile isPySpace = stripChars s
        ++ ((s.dropWhile isPySpace).reverse.takeWhile isPySpace).reverse := by
      have key := congrArg List.reverse
        (List.takeWhile_append_dropWhile isPySpace (s.dropWhile isPySpace).reverse)
      rw [List.reverse_append, List.reverse_reverse] at key
      exact key.symm
    conv_lhs => rw [h1, h2]
    rw [List.append_assoc]
  · exact fun c hc => List.mem_takeWhile_imp hc
  · intro c hc
    rw [List.mem_reverse] at hc
    exact List.mem_takeWhile_imp hc

lemma cntOcc_stripChars (ph s : List Char) (hph : ph ≠ [])
    (hh : ∀ c, ph.head? = some c → isPySpace c = false)
    (hl : ∀ c, ph.getLast? = some c → isPySpace c = false) :
    cntOcc ph (stripChars s) = cntOcc ph s := by
  obtain ⟨pre, suf, hs, hpre, hsuf⟩ := stripChars_decomp s
  obtain ⟨c0, hc0⟩ : ∃ c0, ph.head? = some c0 := by
    match ph, hph with
    | c :: t, _ => exact ⟨c, rfl⟩
  obtain ⟨cl, hcl⟩ : ∃ cl, ph.getLast? = some cl := by
    match hx : ph.getLast? with
    | none => exact absurd (List.getLast?_eq_none_iff.1 hx) hph
    | some c => exact ⟨c, rfl⟩
  have hc0m : c0 ∈ ph := List.mem_of_mem_head? hc0
  have hclm : cl ∈ ph := by
    obtain ⟨hne2, hc⟩ := List.mem_getLast?_eq_getLast (show cl ∈ ph.getLast? by rw [hcl]; rfl)
    rw [hc]; exact List.getLast_mem hne2
  have hc0pre : c0 ∉ pre := fun hmem => by simpa [hpre c0 hmem] using hh c0 hc0
  have hclsuf : cl ∉ suf := fun hmem => by simpa [hsuf cl hmem] using hl cl hcl
  conv_rhs => rw [hs]
  rw [List.append_assoc]
  rw [cntOcc_append ph pre (stripChars s ++ suf) hph
    (noSpan_of_head_not_mem ph pre _ (fun c hc => by rw [hc0] at hc; cases hc; exact hc0pre))]
  rw [cntOcc_append ph (stripChars s) suf hph
    (noSpan_of_last_not_mem ph _ suf (fun c hc => by rw [hcl] at hc; cases hc; exact hclsuf))]
  rw [cntOcc_eq_zero_of_mem_not_mem ph pre c0 hc0m hc0pre,
    cntOcc_eq_zero_of_mem_not_mem ph suf cl hclm hclsuf]
  omega

/-! ### Facts about `lastNewlinePos`, `stripChars` and the paragraphs of
`goSplit` -/

lemma lastNewlinePos_none (l : List Char) (h : lastNewlinePos l = none) : '\n' ∉ l := by
  induction l with
  | nil => simp
  | cons c rest ih =>
    rw [lastNewlinePos] at h
    match hr : lastNewlinePos rest with
    | some j0 => rw [hr] at h; cases h
    | none =>
      rw [hr] at h
      by_cases hc : c = '\n'
      · rw [if_pos hc] at h; cases h
      · rw [if_neg hc] at h
        simp only [List.mem_cons]
        rintro (rfl | hmem)
        · exact hc rfl
        · exact ih hr hmem

lemma lastNewlinePos_spec (l : List Char) (j : Nat) (h : lastNewlinePos l = some j) :
    j < l.length ∧ l.get? j = some '\n'
      ∧ ∀ m, j < m → m < l.length → l.get? m ≠ some '\n' := by
  induction l generalizing j with
  | nil => simp [lastNewlinePos] at h
  | cons c rest ih =>
    rw [lastNewlinePos] at h
    match hr : lastNewlinePos rest with
    | some j0 =>
      rw [hr] at h
      cases h
      obtain ⟨h1, h2, h3⟩ := ih j0 hr
      refine ⟨by simp; omega, by simpa using h2, ?_⟩
      intro m hm hmlen
      match m, hm with
      | m0 + 1, _ =>
        simp only [List.get?_cons_succ]
        exact h3 m0 (by omega) (by simp at hmlen; omega)
    | none =>
      rw [hr] at h
      by_cases hc : c = '\n'
      · rw [if_pos hc] at h
        cases h
        subst hc
        refine ⟨by simp, rfl, ?_⟩
        intro m hm hmlen
        match m, hm with
        | m0 + 1, _ =>
          simp only [List.get?_cons_succ]
          intro hget
          have hmem : '\n' ∈ rest := List.get?_mem hget
          exact absurd hmem (lastNewlinePos_none rest hr)
      · rw [if_neg hc] at h
        cases h

lemma head?_dropWhile_false (p : Char → Bool) (l : List Char) (c : Char)
    (h : (l.dropWhile p).head? = some c) : p c = false := by
  induction l with
  | nil => simp at h
  | cons a l ih =>
    rw [List.dropWhile_cons] at h
    by_cases hp : p a
    · rw [if_pos hp] at h; exact ih h
    · rw [if_neg hp] at h
      simp only [List.head?_cons, Option.some.injEq] at h
      subst h
      simpa using hp

lemma noSpan_of_lastA_not_mem (ph a b : List Char)
    (h : ∀ c, a.getLast? = some c → c ∉ ph) : NoSpan ph a b := by
  rintro x y hxy hx hy ⟨hxa, _⟩
  obtain ⟨t, ht⟩ := hxa
  have hlast : a.getLast? = x.getLast? := by
    rw [← ht, List.getLast?_append_of_ne_nil _ hx]
  match hxl : x.getLast? with
  | none => exact hx (List.getLast?_eq_none_iff.1 hxl)
  | some c =>
    have hcx : c ∈ x := by
      obtain ⟨hne2, hc⟩ := List.mem_getLast?_eq_getLast (show c ∈ x.getLast? by rw [hxl]; rfl)
      rw [hc]; exact List.getLast_mem hne2
    have hcph : c ∈ ph := by rw [hxy]; exact List.mem_append_left _ hcx
    exact h c (hlast ▸ hxl) hcph

lemma prefix_take_eq {a b : List Char} (hp : a <+: b) {n : Nat} (hn : n ≤ a.length) :
    b.take n = a.take n := by
  obtain ⟨t, ht⟩ := hp
  rw [← ht, List.take_append_eq_append_take, Nat.sub_eq_zero_of_le hn, List.take_zero,
    List.append_nil]

lemma prefix_get?_eq {a b : List Char} (hp : a <+: b) {n : Nat} (hn : n < a.length) :
    b.get? n = a.get? n := by
  obtain ⟨t, ht⟩ := hp
  rw [← ht, List.get?_append hn]

lemma stripChars_head_not_space (s : List Char) :
    ∀ c, (stripChars s).head? = some c → isPySpace c = false := by
  intro c hc
  unfold stripChars at hc
  set rev := (s.dropWhile isPySpace).reverse with hrev
  set m := rev.dropWhile isPySpace with hm
  rw [List.head?_reverse] at hc
  have hmne : m ≠ [] := by intro h0; rw [h0] at hc; cases hc
  obtain ⟨t, ht⟩ : m <:+ rev := List.dropWhile_suffix _
  have hlast : rev.getLast? = some c := by
    rw [← ht, List.getLast?_append_of_ne_nil _ hmne]; exact hc
  rw [hrev, List.getLast?_reverse] at hlast
  exact head?_dropWhile_false isPySpace s c hlast

/-- Structure of the separator consumed by `goSplit`'s match branch. -/
lemma sep_facts (rest : List Char) (j : Nat)
    (h : lastNewlinePos (rest.takeWhile isPySpace) = some j) :
    (∀ c ∈ ('\n' :: rest.take (j + 1)), isPySpace c = true)
    ∧ ('\n' :: rest.take (j + 1)).getLast? = some '\n'
    ∧ ('\n' :: rest) = ('\n' :: rest.take (j + 1)) ++ rest.drop (j + 1)
    ∧ (∀ c, (rest.drop (j + 1)).head? = some c → c ≠ '\n') := by
  obtain ⟨hjlen, hjget, hjlast⟩ := lastNewlinePos_spec _ j h
  have hpre : rest.takeWhile isPySpace <+: rest := List.takeWhile_prefix _
  have hrunlen : (rest.takeWhile isPySpace).length ≤ rest.length := takeWhile_length_le _ _
  have htake : rest.take (j + 1) = (rest.takeWhile isPySpace).take (j + 1) :=
    prefix_take_eq hpre (by omega)
  refine ⟨?_, ?_, ?_, ?_⟩
  · intro c hc
    rcases List.mem_cons.1 hc with rfl | hc2
    · decide
    · rw [htake] at hc2
      exact List.mem_takeWhile_imp (List.mem_of_mem_take hc2)
  · have hXne : rest.take (j + 1) ≠ [] := by
      intro h0
      have := congrArg List.length h0
      simp only [List.length_take, List.length_nil] at this
      omega
    rw [show ('\n' :: rest.take (j + 1)) = ['\n'] ++ rest.take (j + 1) from rfl,
      List.getLast?_append_of_ne_nil _ hXne]
    have hlen : (rest.take (j + 1)).length = j + 1 := by
      simp only [List.length_take]
      omega
    rw [List.getLast?_eq_get?, hlen]
    simp only [Nat.add_sub_cancel]
    rw [List.get?_take (by omega)]
    rw [prefix_get?_eq hpre hjlen]
    exact hjget
  · rw [List.cons_append, List.take_append_drop]
  · intro c hc
    rcases lt_or_eq_of_le (show j + 1 ≤ (rest.takeWhile isPySpace).length by omega)
      with hlt | heq
    · rw [List.head?_drop, ← List.get?_eq_getElem?, prefix_get?_eq hpre hlt] at hc
      intro h0
      subst h0
      exact hjlast (j + 1) (by omega) hlt hc
    · have hsplit : rest = rest.takeWhile isPySpace ++ rest.dropWhile isPySpace :=
        (List.takeWhile_append_dropWhile isPySpace rest).symm
      have hdrop : rest.drop (j + 1) = rest.dropWhile isPySpace := by
        conv_lhs => rw [hsplit]
        rw [heq, List.drop_left]
      rw [hdrop] at hc
      have := head?_dropWhile_false isPySpace rest c hc
      intro h0
      subst h0
      simp [isPySpace] at this

/-- Sum of the per-paragraph occurrence counts over `goSplit` equals the
count over the whole (stripped) text: separators contain `'\n'` at both
ends and only whitespace, so a newline-free token with a non-whitespace
head neither crosses nor inhabits them. -/
lemma sum_cntOcc_goSplit (ph : List Char) (hph : ph ≠ []) (hnl : '\n' ∉ ph)
    (hhead : ∀ c, ph.head? = some c → isPySpace c = false) :
    ∀ s acc, ((goSplit s acc).map (cntOcc ph)).sum = cntOcc ph (acc.reverse ++ s) := by
  obtain ⟨c0, hc0⟩ : ∃ c0, ph.head? = some c0 := by
    match ph, hph with
    | c :: t, _ => exact ⟨c, rfl⟩
  have hc0m : c0 ∈ ph := List.mem_of_mem_head? hc0
  have hc0ws : isPySpace c0 = false := hhead c0 hc0
  intro s acc
  induction s, acc using goSplit.induct with
  | case1 acc =>
    rw [goSplit]
    simp
  | case2 rest acc j hj ih =>
    rw [goSplit, if_pos rfl, hj]
    obtain ⟨hsepws, hseplast, hdecomp, _⟩ := sep_facts rest j hj
    simp only [List.map_cons, List.sum_cons]
    rw [ih]
    simp only [List.reverse_nil, List.nil_append]
    conv_rhs => rw [hdecomp, ← List.append_assoc]
    rw [cntOcc_append ph (acc.reverse ++ ('\n' :: rest.take (j + 1))) (rest.drop (j + 1)) hph
      (noSpan_of_lastA_not_mem _ _ _ (by
        rw [List.getLast?_append_of_ne_nil _ (by simp), hseplast]
        rintro c hc
        cases hc
        exact fun hmem => hnl hmem))]
    rw [cntOcc_append ph acc.reverse ('\n' :: rest.take (j + 1)) hph
      (noSpan_of_headb_not_mem _ _ _ (by
        rintro c hc
        cases hc
        exact fun hmem => hnl hmem))]
    rw [cntOcc_eq_zero_of_mem_not_mem ph ('\n' :: rest.take (j + 1)) c0 hc0m
      (fun hmem => by rw [hsepws c0 hmem] at hc0ws; cases hc0ws)]
    omega
  | case3 rest acc hj ih =>
    rw [goSplit, if_pos rfl, hj, ih]
    simp [List.append_assoc]
  | case4 c rest acc hc ih =>
    rw [goSplit, if_neg hc, ih]
    simp [List.append_assoc]

/-- A paragraph never contains two adjacent newlines (such a pair would have
been consumed as a separator). -/
def NoNl2 (p : List Char) : Prop := ¬ ('\n' :: '\n' :: []) <:+: p

lemma nl2_infix_snoc (A : List Char) (c : Char)
    (h : ('\n' :: '\n' :: []) <:+: A ++ [c]) :
    ('\n' :: '\n' :: []) <:+: A ∨ (c = '\n' ∧ A.getLast? = some '\n') := by
  obtain ⟨s, t, hst⟩ := h
  rcases List.eq_nil_or_concat t with rfl | ⟨t2, d, rfl⟩
  · right
    have hst2 : (s ++ ['\n']) ++ ['\n'] = A ++ [c] := by
      simpa [List.append_assoc] using hst
    obtain ⟨hA, hc⟩ := List.append_inj' hst2 rfl
    refine ⟨(List.cons.inj hc).1.symm, ?_⟩
    rw [← hA, List.getLast?_append_of_ne_nil _ (by simp)]
    rfl
  · left
    have hst2 : (s ++ '\n' :: '\n' :: t2) ++ [d] = A ++ [c] := by
      simpa [List.concat_eq_append, List.append_assoc] using hst
    obtain ⟨hA, _⟩ := List.append_inj' hst2 rfl
    exact ⟨s, t2, by rw [← hA]; simp⟩

/-- Every paragraph produced by `goSplit` has no adjacent newline pair and
does not start with a newline, given matching invariants on the
accumulator. -/
lemma goSplit_paras_shape :
    ∀ s acc, NoNl2 acc.reverse
      → (∀ hd, acc.reverse.head? = some hd → hd ≠ '\n')
      → (∀ c1 c2, acc.head? = some c1 → s.head? = some c2 → ¬(c1 = '\n' ∧ c2 = '\n'))
      → (acc = [] → ∀ c, s.head? = some c → c ≠ '\n')
      → ∀ p ∈ goSplit s acc, NoNl2 p ∧ (∀ hd, p.head? = some hd → hd ≠ '\n') := by
  intro s acc
  induction s, acc using goSplit.induct with
  | case1 acc =>
    intro h1 h2 _ _ p hp
    rw [goSplit] at hp
    rcases List.mem_singleton.1 hp with rfl
    exact ⟨h1, h2⟩
  | case2 rest acc j hj ih =>
    intro h1 h2 _ _ p hp
    rw [goSplit, if_pos rfl, hj] at hp
    obtain ⟨_, _, _, hdrophead⟩ := sep_facts rest j hj
    rcases List.mem_cons.1 hp with rfl | hp2
    · exact ⟨h1, h2⟩
    · exact ih (by simp [NoNl2]) (by simp) (by simp)
        (fun _ c hc => hdrophead c hc) p hp2
  | case3 rest acc hj ih =>
    intro h1 h2 h3 h4 p hp
    rw [goSplit, if_pos rfl, hj] at hp
    have hrestrun := lastNewlinePos_none _ hj
    have hresthead : ∀ c, rest.head? = some c → c ≠ '\n' := by
      intro c hcc h0
      subst h0
      rcases rest with _ | ⟨r0, rest2⟩
      · cases hcc
      · simp only [List.head?_cons, Option.some.injEq] at hcc
        subst hcc
        apply hrestrun
        rw [List.takeWhile_cons, if_pos (by decide)]
        exact List.mem_cons_self _ _
    refine ih ?_ ?_ ?_ (by intro h0; cases h0) p hp
    · intro hinf
      simp only [List.reverse_cons] at hinf
      rcases nl2_infix_snoc _ _ hinf with hbad | ⟨_, hbad2⟩
      · exact h1 hbad
      · rw [List.getLast?_reverse] at hbad2
        exact h3 '\n' '\n' hbad2 rfl ⟨rfl, rfl⟩
    · intro hd hhd
      simp only [List.reverse_cons] at hhd
      rcases acc with _ | ⟨a0, acc2⟩
      · simp only [List.reverse_nil, List.nil_append, List.head?_cons,
          Option.some.injEq] at hhd
        subst hhd
        exact h4 rfl '\n' rfl
      · have hXne : (a0 :: acc2).reverse ≠ [] := by simp
        obtain ⟨x, X2, hX⟩ := List.exists_cons_of_ne_nil hXne
        rw [hX, List.cons_append, List.head?_cons, Option.some.injEq] at hhd
        subst hhd
        apply h2
        rw [hX]
        rfl
    · intro c1 c2 hc1 hc2
      simp only [List.head?_cons, Option.some.injEq] at hc1
      subst hc1
      rintro ⟨_, h5⟩
      exact hresthead c2 hc2 h5
  | case4 c rest acc hc ih =>
    intro h1 h2 h3 h4 p hp
    rw [goSplit, if_neg hc] at hp
    refine ih ?_ ?_ ?_ (by intro h0; cases h0) p hp
    · intro hinf
      simp only [List.reverse_cons] at hinf
      rcases nl2_infix_snoc _ _ hinf with hbad | ⟨hbad1, _⟩
      · exact h1 hbad
      · exact hc hbad1
    · intro hd hhd
      simp only [List.reverse_cons] at hhd
      rcases acc with _ | ⟨a0, acc2⟩
      · simp only [List.reverse_nil, List.nil_append, List.head?_cons,
          Option.some.injEq] at hhd
        subst hhd
        exact hc
      · have hXne : (a0 :: acc2).reverse ≠ [] := by simp
        obtain ⟨x, X2, hX⟩ := List.exists_cons_of_ne_nil hXne
        rw [hX, List.cons_append, List.head?_cons, Option.some.injEq] at hhd
        subst hhd
        apply h2
        rw [hX]
        rfl
    · intro c1 c2 hc1 hc2
      simp only [List.head?_cons, Option.some.injEq] at hc1
      subst hc1
      rintro ⟨rfl, _⟩
      exact hc rfl

/-! ### `re.sub` and occurrence counting -/

/-- Case-insensitive prefix-or-extension compatibility: `pat` could match at
the start of `y ++ z` for some continuation `z`. -/
def lowCompat (pat y : List Char) : Bool :=
  (pat.map Char.toLower).isPrefixOf (y.map Char.toLower)
  || (y.map Char.toLower).isPrefixOf (pat.map Char.toLower)

lemma lowCompat_of_lowPrefix_append (pat Y Z : List Char)
    (h : lowPrefix pat (Y ++ Z) = true) : lowCompat pat Y = true := by
  unfold lowPrefix at h
  unfold lowCompat
  rw [List.map_append] at h
  have hpre := List.isPrefixOf_iff_prefix.1 h
  rcases le_or_lt (pat.map Char.toLower).length (Y.map Char.toLower).length with hle | hgt
  · have : pat.map Char.toLower <+: Y.map Char.toLower := by
      have h1 := List.prefix_iff_eq_take.1 hpre
      rw [List.take_append_eq_append_take, Nat.sub_eq_zero_of_le hle, List.take_zero,
        List.append_nil] at h1
      rw [h1]
      exact List.take_prefix _ _
    rw [List.isPrefixOf_iff_prefix.2 this]
    simp
  · have : Y.map Char.toLower <+: pat.map Char.toLower :=
      List.prefix_of_prefix_length_le (List.prefix_append _ _) hpre (by omega)
    rw [List.isPrefixOf_iff_prefix.2 this]
    simp

/-- `subSignal` copies the first `m` characters verbatim when no match
starts among them. -/
lemma subSignal_copy (c0 : Char) (sig : List Char) :
    ∀ (m : Nat) (s : List Char), (∀ k, k < m → ¬ lowPrefix (c0 :: sig) (s.drop k) = true) →
      subSignal c0 sig s = s.take m ++ subSignal c0 sig (s.drop m) := by
  intro m
  induction m with
  | zero => intro s _; simp
  | succ m ih =>
    intro s hnom
    rcases s with _ | ⟨c, rest⟩
    · simp [subSignal]
    · rw [subSignal]
      have h0 : ¬ lowPrefix (c0 :: sig) (c :: rest) = true := by
        have := hnom 0 (by omega)
        simpa using this
      rw [if_neg h0, List.take_succ_cons, List.drop_succ_cons, List.cons_append]
      rw [ih rest (fun k hk => by
        have := hnom (k + 1) (by omega)
        simpa using this)]

/-- A newline-free prefix of `subSignal`'s output is a prefix of its input:
every inserted block starts with `'\n'`. -/
lemma subSignal_prefix_rev (c0 : Char) (sig : List Char) :
    ∀ s ph, '\n' ∉ ph → ph <+: subSignal c0 sig s → ph <+: s := by
  intro s
  induction s using subSignal.induct c0 sig with
  | case1 =>
    intro ph _ h
    rwa [subSignal] at h
  | case2 c rest hmatch ih =>
    intro ph hnl h
    rw [subSignal, if_pos hmatch] at h
    match ph, hnl with
    | [], _ => exact List.nil_prefix
    | p0 :: pt, hnl2 =>
      exfalso
      have hhead : p0 = '\n' := by
        obtain ⟨t, ht⟩ := h
        have h1 := congrArg List.head? ht
        simp only [List.cons_append, List.head?_cons] at h1
        exact Option.some.inj (h1.trans rfl)
      exact hnl2 (by rw [hhead]; simp)
  | case3 c rest hmatch ih =>
    intro ph hnl h
    rw [subSignal, if_neg hmatch] at h
    match ph, hnl with
    | [], _ => exact List.nil_prefix
    | p0 :: pt, hnl2 =>
      have hp0 : p0 = c := by
        obtain ⟨t, ht⟩ := h
        have h1 := congrArg List.head? ht
        simp only [List.cons_append, List.head?_cons] at h1
        exact Option.some.inj h1
      subst hp0
      have hpt : pt <+: subSignal c0 sig rest := by
        obtain ⟨t, ht⟩ := h
        rw [List.cons_append] at ht
        exact ⟨t, by injection ht with _ h2⟩
      have := ih pt (fun hmem => hnl2 (List.mem_cons_of_mem _ hmem)) hpt
      exact (List.prefix_cons_inj p0).2 this

/-- `re.sub` (marker insertion before each case-insensitive signal match)
neither creates nor destroys occurrences of a brace-delimited, newline-free
token that is incompatible with the signal. -/
lemma cntOcc_subSignal (c0 : Char) (sig ph : List Char)
    (hph : ph ≠ []) (hnl : '\n' ∉ ph) (hhead : ph.head? = some '\x7b')
    (hsig1 : ('\x7b' : Char) ∉ (c0 :: sig).map Char.toLower)
    (hsigclear : ∀ k, k < ph.length → lowCompat (c0 :: sig) (ph.drop k) = false) :
    ∀ s, cntOcc ph (subSignal c0 sig s) = cntOcc ph s := by
  have hbm : ('\x7b' : Char) ∉ markerIns := by decide
  have hbrace_mem : ('\x7b' : Char) ∈ ph := List.mem_of_mem_head? hhead
  intro s
  induction s using subSignal.induct c0 sig with
  | case1 => rw [subSignal]
  | case2 c rest hmatch ih =>
    rw [subSignal, if_pos hmatch]
    have hmlow : ((c :: rest).take (sig.length + 1)).map Char.toLower
        = (c0 :: sig).map Char.toLower := by
      unfold lowPrefix at hmatch
      have hpre := List.isPrefixOf_iff_prefix.1 hmatch
      have h1 := List.prefix_iff_eq_take.1 hpre
      rw [List.length_map, List.length_cons] at h1
      rw [List.map_take, ← h1]
    have hbrace_matched : ('\x7b' : Char) ∉ ((c :: rest).take (sig.length + 1)) := by
      intro hmem
      have h2 : ('\x7b' : Char).toLower
          ∈ ((c :: rest).take (sig.length + 1)).map Char.toLower :=
        List.mem_map_of_mem _ hmem
      rw [hmlow, show ('\x7b' : Char).toLower = '\x7b' from by decide] at h2
      exact hsig1 h2
    have hheadfn : ∀ d, ph.head? = some d → d ∉ ((c :: rest).take (sig.length + 1)) := by
      intro d hd
      rw [hhead] at hd
      cases hd
      exact hbrace_matched
    conv_rhs => rw [show (c :: rest)
      = (c :: rest).take (sig.length + 1) ++ (c :: rest).drop (sig.length + 1) from
      (List.take_append_drop _ _).symm]
    rw [cntOcc_append ph _ _ hph (noSpan_of_head_not_mem ph _ _ hheadfn)]
    rw [List.append_assoc]
    rw [cntOcc_append ph markerIns _ hph (noSpan_of_head_not_mem ph _ _ (fun d hd => by
      rw [hhead] at hd; cases hd; exact hbm))]
    rw [cntOcc_append ph _ _ hph (noSpan_of_head_not_mem ph _ _ hheadfn)]
    rw [cntOcc_eq_zero_of_mem_not_mem ph markerIns '\x7b' hbrace_mem hbm]
    rw [cntOcc_eq_zero_of_mem_not_mem ph _ '\x7b' hbrace_mem hbrace_matched]
    rw [ih]
    omega
  | case3 c rest hmatch ih =>
    rw [subSignal, if_neg hmatch]
    simp only [cntOcc]
    rw [ih]
    congr 1
    have hiff : ph <+: c :: subSignal c0 sig rest ↔ ph <+: c :: rest := by
      match ph, hph, hhead, hnl, hsigclear with
      | p0 :: pt, _, hhead2, hnl2, hsigclear2 =>
        constructor
        · intro h
          obtain ⟨t, ht⟩ := h
          have hp0 : p0 = c := by
            have h1 := congrArg List.head? ht
            simp only [List.cons_append, List.head?_cons] at h1
            exact Option.some.inj h1
          subst hp0
          have hpt : pt <+: subSignal c0 sig rest := by
            rw [List.cons_append] at ht
            exact ⟨t, by injection ht with _ h2⟩
          have := subSignal_prefix_rev c0 sig rest pt
            (fun hmem => hnl2 (List.mem_cons_of_mem _ hmem)) hpt
          exact (List.prefix_cons_inj p0).2 this
        · intro h
          obtain ⟨t, ht⟩ := h
          have hp0 : p0 = c := by
            have h1 := congrArg List.head? ht
            simp only [List.cons_append, List.head?_cons] at h1
            exact Option.some.inj h1
          subst hp0
          have hpt : pt <+: rest := by
            rw [List.cons_append] at ht
            exact ⟨t, by injection ht with _ h2⟩
          have hnomatch : ∀ k, k < pt.length → ¬ lowPrefix (c0 :: sig) (rest.drop k) = true := by
            intro k hk hmat
            obtain ⟨t2, ht2⟩ := hpt
            have hrk : rest.drop k = pt.drop k ++ t2 := by
              rw [← ht2, List.drop_append_eq_append_drop, Nat.sub_eq_zero_of_le (by omega),
                List.drop_zero]
            rw [hrk] at hmat
            have hcmp := lowCompat_of_lowPrefix_append (c0 :: sig) (pt.drop k) t2 hmat
            have h2 := hsigclear2 (k + 1) (by simp only [List.length_cons]; omega)
            rw [List.drop_succ_cons] at h2
            rw [hcmp] at h2
            cases h2
          rw [subSignal_copy c0 sig pt.length rest hnomatch]
          rw [show rest.take pt.length = pt from (List.prefix_iff_eq_take.1 hpt).symm]
          exact ⟨subSignal c0 sig (rest.drop pt.length), by simp⟩
    by_cases hb : ph.isPrefixOf (c :: rest)
    · rw [if_pos hb, if_pos (List.isPrefixOf_iff_prefix.2
        (hiff.2 (List.isPrefixOf_iff_prefix.1 hb)))]
    · rw [if_neg hb, if_neg (fun hcon => hb (List.isPrefixOf_iff_prefix.2
        (hiff.1 (List.isPrefixOf_iff_prefix.1 hcon))))]

/-! ### Structure of marked text: where the split marker can occur

With a hash-free input, every `'#'` of `markLegal`'s output belongs to an
inserted `markerIns` block, so every occurrence of `SPLIT_MARK` sits right
after the inserted `"\n\n"`. -/

/-- `lowCompat` with the right-hand side already lowered. -/
def lowCompatLow (pat ylow : List Char) : Bool :=
  (pat.map Char.toLower).isPrefixOf ylow || ylow.isPrefixOf (pat.map Char.toLower)

/-- Text interleaving plain hash-free characters with inserted marker
blocks `markerIns ++ matched`, where `matched` is a case-variant of one of
the signal phrases in `sigs` (stored lowered). -/
inductive MarkedText (sigs : List (List Char)) : List Char → Prop
  | nil : MarkedText sigs []
  | plain (c : Char) (s : List Char) (hc : c ≠ '#') (hs : MarkedText sigs s) :
      MarkedText sigs (c :: s)
  | ins (matched s : List Char) (hne : matched ≠ [])
      (hhash : '#' ∉ matched)
      (hhead : ∀ d, matched.head? = some d →
          d.toLower = 'p' ∨ d.toLower = 'e' ∨ d.toLower = 'n')
      (hlow : matched.map Char.toLower ∈ sigs)
      (hs : MarkedText sigs s) :
      MarkedText sigs (markerIns ++ (matched ++ s))

lemma markedText_of_hash_free (sigs : List (List Char)) (s : List Char)
    (h : '#' ∉ s) : MarkedText sigs s := by
  induction s with
  | nil => exact MarkedText.nil
  | cons c rest ih =>
    refine MarkedText.plain c rest ?_ (ih (fun hmem => h (List.mem_cons_of_mem _ hmem)))
    intro h0
    exact h (h0 ▸ List.mem_cons_self _ _)

lemma MT_drop_of_no_nl (sigs : List (List Char)) :
    ∀ (m : Nat) (s : List Char), MarkedText sigs s → (∀ d ∈ s.take m, d ≠ '\n') →
      MarkedText sigs (s.drop m) := by
  intro m
  induction m with
  | zero => intro s hs _; simpa using hs
  | succ m ih =>
    intro s hs hnl
    cases hs with
    | nil => exact MarkedText.nil
    | plain c s' hc hs' =>
      rw [List.drop_succ_cons]
      refine ih s' hs' ?_
      intro d hd
      refine hnl d ?_
      rw [List.take_succ_cons]
      exact List.mem_cons_of_mem _ hd
    | ins matched s' hne hhash hhead hlow hs' =>
      exfalso
      have h0 : ('\n' : Char) ∈ (markerIns ++ (matched ++ s')).take (m + 1) := by
        rw [show markerIns ++ (matched ++ s')
          = '\n' :: ('\n' :: ((SPLIT_MARK ++ [' ']) ++ (matched ++ s'))) from rfl,
          List.take_succ_cons]
        exact List.mem_cons_self _ _
      exact hnl '\n' h0 rfl

/-- Both-prefixes alignment: a prefix of `a ++ b` agrees with `a` on their
common length. -/
lemma prefix_append_take {x a b : List Char} (h : x <+: a ++ b) :
    x.take a.length = a.take x.length := by
  have hx : x = (a ++ b).take x.length := List.prefix_iff_eq_take.1 h
  have ha : a = (a ++ b).take a.length := by
    rw [List.take_append_eq_append_take, Nat.sub_self, List.take_zero, List.append_nil,
      List.take_length]
  conv_lhs => rw [hx]
  conv_rhs => rw [ha]
  rw [List.take_take, List.take_take, Nat.min_comm]

lemma prefix_append_drop {x a b : List Char} (h : x <+: a ++ b)
    (hlen : a.length ≤ x.length) (htk : x.take a.length = a) :
    x.drop a.length <+: b := by
  obtain ⟨t, ht⟩ := h
  have hx : x = a ++ x.drop a.length := by
    conv_lhs => rw [← List.take_append_drop a.length x, htk]
  rw [hx, List.append_assoc] at ht
  have := List.append_cancel_left ht
  exact ⟨t, this⟩

/-- Inside a block `markerIns ++ R` whose tail `R` starts with a signal
letter, `SPLIT_MARK` occurs only at offset `2` (right after the inserted
`"\n\n"`). -/
lemma marker_block_occ (R : List Char)
    (hRhead : ∀ d, R.head? = some d →
        d.toLower = 'p' ∨ d.toLower = 'e' ∨ d.toLower = 'n')
    (g : Nat) (hg : g < markerIns.length)
    (h : SPLIT_MARK <+: (markerIns ++ R).drop g) : g = 2 := by
  have hdrop : (markerIns ++ R).drop g = markerIns.drop g ++ R := by
    rw [List.drop_append_eq_append_drop, Nat.sub_eq_zero_of_le (le_of_lt hg),
      List.drop_zero]
  rw [hdrop] at h
  have htake := prefix_append_take h
  have hg28 : g < 28 := by
    have : markerIns.length = 28 := by decide
    omega
  have hgpos : 0 ≤ g := Nat.zero_le g
  interval_cases g <;> first
    | rfl
    | (revert htake; decide)
    | (exfalso
       -- offset 24: the trailing "### " of the marker aligns, but the block
       -- tail then has to continue with "LEGAL…" although it starts with a
       -- signal letter
       have htk4 : SPLIT_MARK.take (markerIns.drop 24).length = markerIns.drop 24 := by
         decide
       have hlen4 : (markerIns.drop 24).length ≤ SPLIT_MARK.length := by decide
       obtain ⟨t, ht⟩ := prefix_append_drop h hlen4 htk4
       have hRL : R.head? = some 'L' := by rw [← ht]; rfl
       rcases hRhead 'L' hRL with h5 | h5 | h5 <;> exact absurd h5 (by decide))

/-- In marked text every occurrence of `SPLIT_MARK` is preceded by the two
newlines of its `markerIns` block. -/
lemma MT_marker_preceded (sigs : List (List Char)) (s : List Char)
    (hmt : MarkedText sigs s) :
    ∀ g, SPLIT_MARK <+: s.drop g →
      2 ≤ g ∧ s.get? (g - 1) = some '\n' ∧ s.get? (g - 2) = some '\n' := by
  induction hmt with
  | nil =>
    intro g hocc
    rw [List.drop_nil] at hocc
    have := List.prefix_nil.1 hocc
    exact absurd this (by decide)
  | plain c s' hc hs' ih =>
    intro g hocc
    match g with
    | 0 =>
      exfalso
      rw [List.drop_zero] at hocc
      obtain ⟨t, ht⟩ := hocc
      have h1 := congrArg List.head? ht
      rw [show (SPLIT_MARK ++ t).head? = some '#' from rfl] at h1
      simp only [List.head?_cons, Option.some.injEq] at h1
      exact hc h1.symm
    | g' + 1 =>
      rw [List.drop_succ_cons] at hocc
      obtain ⟨h1, h2, h3⟩ := ih g' hocc
      obtain ⟨k, rfl⟩ : ∃ k, g' = k + 2 := ⟨g' - 2, by omega⟩
      refine ⟨by omega, ?_, ?_⟩
      · rw [show k + 2 + 1 - 1 = (k + 1) + 1 by omega, List.get?_cons_succ]
        rw [show k + 2 - 1 = k + 1 by omega] at h2
        exact h2
      · rw [show k + 2 + 1 - 2 = k + 1 by omega, List.get?_cons_succ]
        rw [show k + 2 - 2 = k by omega] at h3
        exact h3
  | ins matched s' hne hhash hhead hlow hs' ih =>
    intro g hocc
    by_cases hg : g < markerIns.length
    · have hRhead : ∀ d, (matched ++ s').head? = some d →
          d.toLower = 'p' ∨ d.toLower = 'e' ∨ d.toLower = 'n' := by
        intro d hd
        match matched, hne with
        | m0 :: mt, _ =>
          rw [List.cons_append, List.head?_cons] at hd
          exact hhead d (by rw [List.head?_cons]; exact hd)
      have hg2 := marker_block_occ (matched ++ s') hRhead g hg hocc
      subst hg2
      exact ⟨le_refl 2, rfl, rfl⟩
    · push_neg at hg
      have hdrop : (markerIns ++ (matched ++ s')).drop g
          = (matched ++ s').drop (g - markerIns.length) := by
        rw [List.drop_append_eq_append_drop, List.drop_eq_nil_of_le hg, List.nil_append]
      rw [hdrop] at hocc
      by_cases hg1 : g - markerIns.length < matched.length
      · exfalso
        have hdrop2 : (matched ++ s').drop (g - markerIns.length)
            = matched.drop (g - markerIns.length) ++ s' := by
          rw [List.drop_append_eq_append_drop, Nat.sub_eq_zero_of_le (le_of_lt hg1),
            List.drop_zero]
        rw [hdrop2] at hocc
        have hdne : matched.drop (g - markerIns.length) ≠ [] := by
          intro h0
          have := congrArg List.length h0
          simp only [List.length_drop, List.length_nil] at this
          omega
        obtain ⟨d, dl, hd⟩ := List.exists_cons_of_ne_nil hdne
        obtain ⟨t, ht⟩ := hocc
        have hdhash : d = '#' := by
          have h1 := congrArg List.head? ht
          rw [show (SPLIT_MARK ++ t).head? = some '#' from rfl, hd] at h1
          simp only [List.cons_append, List.head?_cons, Option.some.injEq] at h1
          exact h1.symm
        subst hdhash
        exact hhash (List.drop_subset _ _ (hd ▸ List.mem_cons_self _ _))
      · push_neg at hg1
        have hdrop3 : (matched ++ s').drop (g - markerIns.length)
            = s'.drop (g - markerIns.length - matched.length) := by
          rw [List.drop_append_eq_append_drop, List.drop_eq_nil_of_le hg1,
            List.nil_append]
        rw [hdrop3] at hocc
        obtain ⟨h1, h2, h3⟩ := ih _ hocc
        set M := markerIns.length with hM
        set L := matched.length with hL
        have hgbig : g = M + L + (g - M - L) := by omega
        have hidx : ∀ (j : Nat), j < g - M - L + SPLIT_MARK.length →
            True := fun _ _ => trivial
        refine ⟨by omega, ?_, ?_⟩
        · rw [List.get?_append_right (by simp only [← hM]; omega),
            List.get?_append_right (by simp only [List.length_append, ← hM, ← hL]; omega)]
          rw [show g - 1 - markerIns.length - matched.length
            = g - M - L - 1 by omega]
          exact h2
        · rw [List.get?_append_right (by simp only [← hM]; omega),
            List.get?_append_right (by simp only [List.length_append, ← hM, ← hL]; omega)]
          rw [show g - 2 - markerIns.length - matched.length
            = g - M - L - 2 by omega]
          exact h3

lemma lowPrefix_take_map (c0 : Char) (sig : List Char) (u : List Char)
    (h : lowPrefix (c0 :: sig) u = true) :
    (u.take (sig.length + 1)).map Char.toLower = (c0 :: sig).map Char.toLower := by
  unfold lowPrefix at h
  have hpre := List.isPrefixOf_iff_prefix.1 h
  have h1 := List.prefix_iff_eq_take.1 hpre
  rw [List.length_map, List.length_cons] at h1
  rw [List.map_take, ← h1]

/-- Each `re.sub` pass turns marked text into marked text with the new
signal added to the block inventory, provided the new signal cannot match
inside the marker or inside any previously matched signal. -/
lemma subSignal_MT (c0 : Char) (sig : List Char) (sigs : List (List Char))
    (hhash : '#' ∉ (c0 :: sig).map Char.toLower)
    (hnlsig : '\n' ∉ (c0 :: sig).map Char.toLower)
    (hheadsig : c0.toLower = 'p' ∨ c0.toLower = 'e' ∨ c0.toLower = 'n')
    (hmarker : ∀ k, k < markerIns.length → lowCompat (c0 :: sig) (markerIns.drop k) = false)
    (hsl : ∀ sl ∈ sigs, ∀ k, k < sl.length → lowCompatLow (c0 :: sig) (sl.drop k) = false) :
    ∀ n s, s.length ≤ n → MarkedText sigs s →
      MarkedText ((c0 :: sig).map Char.toLower :: sigs) (subSignal c0 sig s) := by
  intro n
  induction n with
  | zero =>
    intro s hlen hmt
    have h0 : s = [] := List.eq_nil_of_length_eq_zero (by omega)
    subst h0
    rw [subSignal]
    exact MarkedText.nil
  | succ n ih =>
    intro s hlen hmt
    cases hmt with
    | nil => rw [subSignal]; exact MarkedText.nil
    | plain c s' hc hs' =>
      by_cases hm : lowPrefix (c0 :: sig) (c :: s') = true
      · rw [subSignal, if_pos hm]
        have hmlow := lowPrefix_take_map c0 sig (c :: s') hm
        have hne2 : (c :: s').take (sig.length + 1) ≠ [] := by
          rw [List.take_succ_cons]
          simp
        have hhash2 : '#' ∉ (c :: s').take (sig.length + 1) := by
          intro hmem
          have h2 : ('#' : Char).toLower
              ∈ ((c :: s').take (sig.length + 1)).map Char.toLower :=
            List.mem_map_of_mem _ hmem
          rw [hmlow, show ('#' : Char).toLower = '#' from by decide] at h2
          exact hhash h2
        have hhead2 : ∀ d, ((c :: s').take (sig.length + 1)).head? = some d →
            d.toLower = 'p' ∨ d.toLower = 'e' ∨ d.toLower = 'n' := by
          intro d hd
          rw [List.take_succ_cons, List.head?_cons] at hd
          cases hd
          have h2 := congrArg List.head? hmlow
          rw [List.take_succ_cons] at h2
          simp only [List.map_cons, List.head?_cons, Option.some.injEq] at h2
          rw [h2]
          exact hheadsig
        have hdropped : MarkedText sigs ((c :: s').drop (sig.length + 1)) := by
          rw [List.drop_succ_cons]
          refine MT_drop_of_no_nl sigs sig.length s' hs' ?_
          intro d hd h0
          subst h0
          have hmem : ('\n' : Char) ∈ (c :: s').take (sig.length + 1) := by
            rw [List.take_succ_cons]
            exact List.mem_cons_of_mem _ hd
          have h2 : ('\n' : Char).toLower
              ∈ ((c :: s').take (sig.length + 1)).map Char.toLower :=
            List.mem_map_of_mem _ hmem
          rw [hmlow, show ('\n' : Char).toLower = '\n' from by decide] at h2
          exact hnlsig h2
        have hlen2 : ((c :: s').drop (sig.length + 1)).length ≤ n := by
          simp only [List.length_drop, List.length_cons]
          simp only [List.length_cons] at hlen
          omega
        rw [List.append_assoc]
        exact MarkedText.ins _ _ hne2 hhash2 hhead2 (hmlow ▸ List.mem_cons_self _ _)
          (ih _ hlen2 hdropped)
      · rw [subSignal, if_neg hm]
        refine MarkedText.plain c _ hc (ih s' ?_ hs')
        simp only [List.length_cons] at hlen
        omega
    | ins matched s' hne hhash_m hhead_m hlow_m hs' =>
      have hnomatch : ∀ k, k < markerIns.length + matched.length →
          ¬ lowPrefix (c0 :: sig) ((markerIns ++ (matched ++ s')).drop k) = true := by
        intro k hk hmat
        by_cases hk1 : k < markerIns.length
        · have hdropk : (markerIns ++ (matched ++ s')).drop k
              = markerIns.drop k ++ (matched ++ s') := by
            rw [List.drop_append_eq_append_drop, Nat.sub_eq_zero_of_le (le_of_lt hk1),
              List.drop_zero]
          rw [hdropk] at hmat
          have h2 := lowCompat_of_lowPrefix_append _ _ _ hmat
          rw [hmarker k hk1] at h2
          cases h2
        · push_neg at hk1
          have hj : k - markerIns.length - matched.length = 0 := by omega
          have hdropk : (markerIns ++ (matched ++ s')).drop k
              = matched.drop (k - markerIns.length) ++ s' := by
            rw [List.drop_append_eq_append_drop, List.drop_eq_nil_of_le hk1,
              List.nil_append, List.drop_append_eq_append_drop, hj, List.drop_zero]
          rw [hdropk] at hmat
          have hcmp := lowCompat_of_lowPrefix_append _ _ _ hmat
          have heq : lowCompat (c0 :: sig) (matched.drop (k - markerIns.length))
              = lowCompatLow (c0 :: sig)
                  ((matched.map Char.toLower).drop (k - markerIns.length)) := by
            unfold lowCompat lowCompatLow
            rw [List.map_drop]
          rw [heq] at hcmp
          have h3 := hsl (matched.map Char.toLower) hlow_m (k - markerIns.length)
            (by rw [List.length_map]; omega)
          rw [h3] at hcmp
          cases hcmp
      rw [subSignal_copy c0 sig (markerIns.length + matched.length) _ hnomatch]
      have htk : (markerIns ++ (matched ++ s')).take (markerIns.length + matched.length)
          = markerIns ++ matched := by
        rw [List.take_append_eq_append_take, List.take_of_length_le (by omega),
          show markerIns.length + matched.length - markerIns.length = matched.length
            by omega,
          List.take_append_eq_append_take, List.take_length, Nat.sub_self, List.take_zero,
          List.append_nil]
      have hdr : (markerIns ++ (matched ++ s')).drop (markerIns.length + matched.length)
          = s' := by
        rw [List.drop_append_eq_append_drop, List.drop_eq_nil_of_le (by omega),
          List.nil_append,
          show markerIns.length + matched.length - markerIns.length = matched.length
            by omega,
          List.drop_append_eq_append_drop, List.drop_length, Nat.sub_self, List.drop_zero,
          List.nil_append]
      rw [htk, hdr, List.append_assoc]
      refine MarkedText.ins matched _ hne hhash_m hhead_m
        (List.mem_cons_of_mem _ hlow_m) (ih s' ?_ hs')
      have : markerIns.length = 28 := by decide
      simp only [List.length_append] at hlen
      omega

/-- The three `re.sub` passes of `chunk_text` over a hash-free input
produce marked text. -/
lemma markLegal_MT (t : List Char) (hh : '#' ∉ t) :
    MarkedText
      (('N' :: "otwithstanding".data).map Char.toLower
        :: ('E' :: "xcept as".data).map Char.toLower
        :: ('P' :: "rovided however".data).map Char.toLower :: [])
      (markLegal t) := by
  have h1 : MarkedText [('P' :: "rovided however".data).map Char.toLower]
      (subSignal 'P' "rovided however".data t) :=
    subSignal_MT 'P' "rovided however".data [] (by decide) (by decide) (by decide)
      (by decide) (fun sl hsl => absurd hsl (List.not_mem_nil sl)) t.length t le_rfl
      (markedText_of_hash_free [] t hh)
  have h2 : MarkedText
      (('E' :: "xcept as".data).map Char.toLower
        :: ('P' :: "rovided however".data).map Char.toLower :: [])
      (subSignal 'E' "xcept as".data (subSignal 'P' "rovided however".data t)) :=
    subSignal_MT 'E' "xcept as".data _ (by decide) (by decide) (by decide)
      (by decide) (by decide) _ _ le_rfl h1
  exact subSignal_MT 'N' "otwithstanding".data _ (by decide) (by decide) (by decide)
    (by decide) (by decide) _ _ le_rfl h2

/-- Every paragraph of `goSplit` is a contiguous segment of the input. -/
lemma goSplit_mem_infix :
    ∀ s acc, ∀ p ∈ goSplit s acc, ∃ u v, u ++ p ++ v = acc.reverse ++ s := by
  intro s acc
  induction s, acc using goSplit.induct with
  | case1 acc =>
    intro p hp
    rw [goSplit] at hp
    rcases List.mem_singleton.1 hp with rfl
    exact ⟨[], [], by simp⟩
  | case2 rest acc j hj ih =>
    intro p hp
    rw [goSplit, if_pos rfl, hj] at hp
    rcases List.mem_cons.1 hp with rfl | hp2
    · exact ⟨[], '\n' :: rest, by simp⟩
    · obtain ⟨u, v, huv⟩ := ih p hp2
      simp only [List.reverse_nil, List.nil_append] at huv
      obtain ⟨_, _, hdecomp, _⟩ := sep_facts rest j hj
      refine ⟨acc.reverse ++ ('\n' :: rest.take (j + 1)) ++ u, v, ?_⟩
      conv_rhs => rw [hdecomp, ← huv]
      simp [List.append_assoc]
  | case3 rest acc hj ih =>
    intro p hp
    rw [goSplit, if_pos rfl, hj] at hp
    obtain ⟨u, v, huv⟩ := ih p hp
    refine ⟨u, v, ?_⟩
    rw [huv]
    simp [List.append_assoc]
  | case4 c rest acc hc ih =>
    intro p hp
    rw [goSplit, if_neg hc] at hp
    obtain ⟨u, v, huv⟩ := ih p hp
    refine ⟨u, v, ?_⟩
    rw [huv]
    simp [List.append_assoc]

/-! ### The split marker occurs only at the start of a paragraph -/

lemma get?_append_mid (a x b : List Char) (j : Nat) (hj : j < x.length) :
    (a ++ (x ++ b)).get? (a.length + j) = x.get? j := by
  rw [List.get?_append_right (by omega)]
  rw [show a.length + j - a.length = j from by omega]
  exact List.get?_append hj

lemma prefix_drop_mid (a x b : List Char) (k : Nat) (hk : k < x.length) (ph : List Char)
    (h : ph <+: x.drop k) : ph <+: (a ++ (x ++ b)).drop (a.length + k) := by
  have hdrop : (a ++ (x ++ b)).drop (a.length + k) = x.drop k ++ b := by
    rw [List.drop_append_eq_append_drop, List.drop_eq_nil_of_le (by omega), List.nil_append,
      List.drop_append_eq_append_drop, show a.length + k - a.length = k from by omega,
      Nat.sub_eq_zero_of_le (le_of_lt hk), List.drop_zero]
  rw [hdrop]
  exact h.trans (List.prefix_append _ _)

lemma get?_pair_infix (p : List Char) (j : Nat) (a b : Char)
    (h1 : p.get? j = some a) (h2 : p.get? (j + 1) = some b) : [a, b] <:+: p := by
  obtain ⟨hj, hga⟩ := List.get?_eq_some.1 h1
  obtain ⟨hj2, hgb⟩ := List.get?_eq_some.1 h2
  have hd1 : p.drop j = a :: p.drop (j + 1) := by
    rw [List.drop_eq_get_cons hj, hga]
  have hd2 : p.drop (j + 1) = b :: p.drop (j + 2) := by
    rw [List.drop_eq_get_cons hj2, hgb]
  have hkey : [a, b] ++ p.drop (j + 2) = p.drop j := by
    rw [hd1, hd2]
    rfl
  exact ⟨p.take j, p.drop (j + 2), by rw [List.append_assoc, hkey, List.take_append_drop]⟩

/-- In the marked text of a hash-free input, the split marker occurs inside
a paragraph only at position `0`. -/
lemma para_marker_only_at_zero (t : List Char) (hh : '#' ∉ t) :
    ∀ p ∈ splitParas (markLegal t), ∀ k, SPLIT_MARK <+: p.drop k → k = 0 := by
  have hmt := markLegal_MT t hh
  have hshape := goSplit_paras_shape (stripChars (markLegal t)) []
    (by intro hinf; exact absurd (List.eq_nil_of_infix_nil hinf) (by decide))
    (by intro hd h0; simp at h0)
    (by intro c1 c2 h0 h1; simp at h0)
    (by
      intro _ c hc h0
      have hsp := stripChars_head_not_space (markLegal t) c hc
      rw [h0] at hsp
      exact absurd hsp (by decide))
  intro p hp k hocc
  obtain ⟨hnl2p, hheadp⟩ := hshape p hp
  by_contra hk0
  have hkpos : 1 ≤ k := Nat.one_le_iff_ne_zero.2 hk0
  have hkp : k < p.length := by
    by_contra hge
    push_neg at hge
    rw [List.drop_eq_nil_of_le hge] at hocc
    exact absurd (List.prefix_nil.1 hocc) (by decide)
  obtain ⟨u, v, huv⟩ := goSplit_mem_infix (stripChars (markLegal t)) [] p hp
  simp only [List.reverse_nil, List.nil_append] at huv
  have hS : u ++ (p ++ v) = stripChars (markLegal t) := by
    rw [← List.append_assoc]
    exact huv
  obtain ⟨pre, suf, hdecomp, hpre, hsuf⟩ := stripChars_decomp (markLegal t)
  have hMdecomp : markLegal t = pre ++ (stripChars (markLegal t) ++ suf) := by
    rw [← List.append_assoc]
    exact hdecomp
  have hlenS : u.length + (p.length + v.length) = (stripChars (markLegal t)).length := by
    have hlen := congrArg List.length hS
    simpa [List.length_append] using hlen
  have hoccS : SPLIT_MARK <+: (stripChars (markLegal t)).drop (u.length + k) := by
    rw [← hS]
    exact prefix_drop_mid u p v k hkp SPLIT_MARK hocc
  have hoccM : SPLIT_MARK <+: (markLegal t).drop (pre.length + (u.length + k)) := by
    rw [hMdecomp]
    exact prefix_drop_mid pre (stripChars (markLegal t)) suf (u.length + k) (by omega)
      SPLIT_MARK hoccS
  obtain ⟨hg2, hg1', hg2'⟩ := MT_marker_preceded _ (markLegal t) hmt
    (pre.length + (u.length + k)) hoccM
  have htrans : ∀ j, j < p.length →
      (markLegal t).get? (pre.length + (u.length + j)) = p.get? j := by
    intro j hj
    rw [hMdecomp, get?_append_mid pre (stripChars (markLegal t)) suf (u.length + j) (by omega),
      ← hS, get?_append_mid u p v j hj]
  rcases Nat.lt_or_ge k 2 with hk1 | hk2
  · have hk1e : k = 1 := by omega
    subst hk1e
    rw [show pre.length + (u.length + 1) - 1 = pre.length + (u.length + 0) from by omega,
      htrans 0 (by omega)] at hg1'
    refine hheadp '\n' ?_ rfl
    rw [← List.get?_zero]
    exact hg1'
  · rw [show pre.length + (u.length + k) - 1 = pre.length + (u.length + (k - 1)) from by omega,
      htrans (k - 1) (by omega)] at hg1'
    rw [show pre.length + (u.length + k) - 2 = pre.length + (u.length + (k - 2)) from by omega,
      htrans (k - 2) (by omega)] at hg2'
    refine hnl2p ?_
    have hpair := get?_pair_infix p (k - 2) '\n' '\n' hg2'
      (by rw [show k - 2 + 1 = k - 1 from by omega]; exact hg1')
    exact hpair

/-! ### Occurrence counting through `chunkLoop` -/

lemma joinParas_nil : joinParas [] = [] := rfl

lemma joinParas_single (p : List Char) : joinParas [p] = p := by
  simp [joinParas, List.intercalate]

lemma joinParas_cons2 (p q : List Char) (rest : List (List Char)) :
    joinParas (p :: q :: rest) = p ++ '\n' :: '\n' :: joinParas (q :: rest) := by
  simp [joinParas, List.intercalate]

lemma cntOcc_cons_ne (ph : List Char) (c : Char) (l : List Char) (d : Char)
    (hd : ph.head? = some d) (hne : d ≠ c) : cntOcc ph (c :: l) = cntOcc ph l := by
  match ph, hd with
  | e :: tl, hd =>
    simp only [List.head?_cons, Option.some.injEq] at hd
    subst hd
    rw [cntOcc]
    have hb : ((e :: tl).isPrefixOf (c :: l)) = false := by
      rw [Bool.eq_false_iff]
      intro htrue
      obtain ⟨t, ht⟩ := List.isPrefixOf_iff_prefix.1 htrue
      simp only [List.cons_append, List.cons.injEq] at ht
      exact hne ht.1
    rw [hb]
    simp

lemma cntOcc_joinParas (ph : List Char) (d : Char) (hd : ph.head? = some d)
    (hdn : d ≠ '\n') (hnl : '\n' ∉ ph) :
    ∀ ps : List (List Char), cntOcc ph (joinParas ps) = (ps.map (cntOcc ph)).sum := by
  have hne : ph ≠ [] := by
    intro h0
    rw [h0] at hd
    cases hd
  intro ps
  induction ps with
  | nil =>
    rw [joinParas_nil, cntOcc_nil_of_ne ph hne]
    simp
  | cons p rest ih =>
    cases rest with
    | nil => simp [joinParas_single]
    | cons q rest2 =>
      rw [joinParas_cons2,
        cntOcc_append ph p ('\n' :: '\n' :: joinParas (q :: rest2)) hne
          (noSpan_of_headb_not_mem ph p _ (by
            intro c hc
            simp only [List.head?_cons, Option.some.injEq] at hc
            subst hc
            exact hnl)),
        cntOcc_cons_ne ph '\n' _ d hd hdn, cntOcc_cons_ne ph '\n' _ d hd hdn, ih]
      simp

lemma removeAll_no_occ (p0 : Char) (pt : List Char) :
    ∀ l, (∀ k, ¬(p0 :: pt) <+: l.drop k) → removeAll p0 pt l = l := by
  intro l
  induction l using removeAll.induct p0 pt with
  | case1 =>
    intro _
    rw [removeAll]
  | case2 c rest hpre ih =>
    intro h
    exfalso
    refine h 0 ?_
    rw [List.drop_zero]
    exact List.isPrefixOf_iff_prefix.1 hpre
  | case3 c rest hpre ih =>
    intro h
    rw [removeAll, if_neg hpre]
    rw [ih (fun k hk => h (k + 1) (by rw [List.drop_succ_cons]; exact hk))]

lemma removeAll_prefix_only (p0 : Char) (pt r : List Char)
    (hno : ∀ k, ¬(p0 :: pt) <+: r.drop k) :
    removeAll p0 pt ((p0 :: pt) ++ r) = r := by
  rw [show (p0 :: pt) ++ r = p0 :: (pt ++ r) from rfl, removeAll,
    if_pos (List.isPrefixOf_iff_prefix.2 (by
      rw [show p0 :: (pt ++ r) = (p0 :: pt) ++ r from rfl]
      exact List.prefix_append _ _))]
  rw [show (p0 :: (pt ++ r)).drop (pt.length + 1) = r from by
    rw [List.drop_succ_cons, List.drop_left]]
  exact removeAll_no_occ p0 pt r hno

/-- A marker paragraph's `replace`-then-`strip` transformation preserves the
placeholder occurrence count. -/
lemma cntOcc_marker_para (ph : List Char) (hne : ph ≠ []) (hbrace : ph.head? = some '\x7b')
    (hlast : ph.getLast? = some '\x7d') (hhash : '#' ∉ ph)
    (p : List Char)
    (honly : ∀ k, SPLIT_MARK <+: p.drop k → k = 0)
    (hpref : SPLIT_MARK.isPrefixOf (stripChars p) = true) :
    cntOcc ph (stripChars (removeAll '#' SPLIT_MARK.tail p)) = cntOcc ph p := by
  have hsm25 : SPLIT_MARK.length = 25 := by decide
  obtain ⟨pre2, suf2, hdec, hpre2, _⟩ := stripChars_decomp p
  have hdec2 : p = pre2 ++ (stripChars p ++ suf2) := by
    rw [← List.append_assoc]
    exact hdec
  have hoccstrip : SPLIT_MARK <+: stripChars p := List.isPrefixOf_iff_prefix.1 hpref
  have hoccp : SPLIT_MARK <+: p.drop pre2.length := by
    rw [hdec2, List.drop_left]
    exact hoccstrip.trans (List.prefix_append _ _)
  have hpre20 : pre2.length = 0 := honly pre2.length hoccp
  have hSMp : SPLIT_MARK <+: p := by
    have h0 := hoccp
    rw [hpre20, List.drop_zero] at h0
    exact h0
  obtain ⟨r, hr⟩ := hSMp
  have hnor : ∀ k, ¬SPLIT_MARK <+: r.drop k := by
    intro k hk
    have hocc2 : SPLIT_MARK <+: p.drop (SPLIT_MARK.length + k) := by
      rw [← hr, List.drop_append_eq_append_drop, List.drop_eq_nil_of_le (by omega),
        List.nil_append, show SPLIT_MARK.length + k - SPLIT_MARK.length = k from by omega]
      exact hk
    have h0 := honly _ hocc2
    omega
  have hrm : removeAll '#' SPLIT_MARK.tail p = r := by
    rw [← hr]
    exact removeAll_prefix_only '#' SPLIT_MARK.tail r hnor
  rw [hrm]
  rw [cntOcc_stripChars ph r hne
    (by
      intro c hc
      rw [hbrace] at hc
      cases hc
      decide)
    (by
      intro c hc
      rw [hlast] at hc
      cases hc
      decide)]
  rw [← hr, cntOcc_append ph SPLIT_MARK r hne
    (noSpan_of_lastA_not_mem ph SPLIT_MARK r (by
      intro c hc
      rw [show SPLIT_MARK.getLast? = some '#' from by decide] at hc
      cases hc
      exact hhash))]
  rw [cntOcc_eq_zero_of_mem_not_mem ph SPLIT_MARK '\x7b' (List.mem_of_mem_head? hbrace)
    (by decide)]
  omega

/-- `chunkLoop` conserves the total placeholder occurrence count. -/
lemma sum_cntOcc_chunkLoop (ph : List Char) (hne : ph ≠ []) (hbrace : ph.head? = some '\x7b')
    (hlast : ph.getLast? = some '\x7d') (hnl : '\n' ∉ ph) (hhash : '#' ∉ ph) (page : Nat) :
    ∀ (paras current : List (List Char)),
      (∀ p ∈ paras, ∀ k, SPLIT_MARK <+: p.drop k → k = 0) →
      ((chunkLoop page paras current).map (fun c => cntOcc ph c.text)).sum
        = (current.map (cntOcc ph)).sum + (paras.map (cntOcc ph)).sum := by
  have hjoin := cntOcc_joinParas ph '\x7b' hbrace (by decide) hnl
  intro paras
  induction paras with
  | nil =>
    intro current _
    rw [chunkLoop]
    cases current with
    | nil => simp
    | cons c0 cs =>
      rw [if_neg (by simp)]
      simp [hjoin]
  | cons p rest ih =>
    intro current honly
    rw [chunkLoop]
    by_cases hm : SPLIT_MARK.isPrefixOf (stripChars p) = true
    · rw [if_pos hm, List.map_append, List.sum_append,
        ih _ (fun q hq => honly q (List.mem_cons_of_mem _ hq))]
      have hnew : cntOcc ph (stripChars (removeAll '#' SPLIT_MARK.tail p)) = cntOcc ph p :=
        cntOcc_marker_para ph hne hbrace hlast hhash p (honly p (List.mem_cons_self _ _)) hm
      cases current with
      | nil => simp [hnew]
      | cons c0 cs =>
        rw [if_neg (by simp)]
        simp only [List.map_cons, List.map_nil, List.sum_cons, List.sum_nil, hjoin, hnew]
        omega
    · rw [if_neg hm, ih _ (fun q hq => honly q (List.mem_cons_of_mem _ hq))]
      simp
      omega

/-! ### The grand conservation lemma for `chunk_text` -/

lemma countP_pos_of_sum_one {α : Type} (f : α → Nat) :
    ∀ l : List α, (l.map f).sum = 1 → l.countP (fun x => decide (0 < f x)) = 1 := by
  intro l
  induction l with
  | nil =>
    intro h
    simp at h
  | cons x xs ih =>
    intro h
    simp only [List.map_cons, List.sum_cons] at h
    rw [List.countP_cons]
    by_cases hx : f x = 0
    · rw [hx] at h
      simp only [Nat.zero_add] at h
      rw [ih h, hx]
      simp
    · have hfx : f x = 1 ∧ (xs.map f).sum = 0 := by omega
      have hzero : xs.countP (fun x => decide (0 < f x)) = 0 := by
        rw [List.countP_eq_zero]
        intro a ha hp
        have hfa : f a = 0 :=
          List.sum_eq_zero_iff.1 hfx.2 (f a) (List.mem_map_of_mem f ha)
        rw [decide_eq_true_eq] at hp
        omega
      rw [hzero, if_pos (by simp [Nat.pos_of_ne_zero hx])]

/-! ### Facts about the placeholder tokens of `parse_pdf` -/

lemma toLower_eq_self_of_lt (c : Char) (h : c.toNat < 65) : c.toLower = c := by
  show (if c.toNat ≥ 65 ∧ c.toNat ≤ 90 then Char.ofNat (c.toNat + 32) else c) = c
  rw [if_neg (by omega)]

lemma char_digit_toNat (m : Nat) (hm : m < 10) : (Char.ofNat (48 + m)).toNat = 48 + m := by
  interval_cases m <;> decide

lemma natDigits_bounds (n : Nat) : ∀ c ∈ natDigits n, 48 ≤ c.toNat ∧ c.toNat ≤ 57 := by
  induction n using natDigits.induct with
  | case1 n h =>
    intro c hc
    rw [natDigits, if_pos h] at hc
    rcases List.mem_singleton.1 hc with rfl
    rw [char_digit_toNat n h]
    omega
  | case2 n h ih =>
    intro c hc
    rw [natDigits, if_neg h] at hc
    rcases List.mem_append.1 hc with hc1 | hc2
    · exact ih c hc1
    · rcases List.mem_singleton.1 hc2 with rfl
      rw [char_digit_toNat _ (Nat.mod_lt _ (by omega))]
      have := Nat.mod_lt n (show 0 < 10 by omega)
      omega

/-- Parse a decimal digit string back to its value (left inverse of
`natDigits`). -/
def digitsVal (l : List Char) : Nat :=
  l.foldl (fun a c => 10 * a + (c.toNat - 48)) 0

lemma digitsVal_natDigits (n : Nat) : digitsVal (natDigits n) = n := by
  induction n using natDigits.induct with
  | case1 n h =>
    rw [natDigits, if_pos h]
    show 10 * 0 + ((Char.ofNat (48 + n)).toNat - 48) = n
    rw [char_digit_toNat n h]
    omega
  | case2 n h ih =>
    rw [natDigits, if_neg h]
    unfold digitsVal
    rw [List.foldl_append]
    show 10 * digitsVal (natDigits (n / 10)) + ((Char.ofNat (48 + n % 10)).toNat - 48) = n
    rw [ih, char_digit_toNat _ (Nat.mod_lt _ (by omega))]
    omega

lemma natDigits_inj {m n : Nat} (h : natDigits m = natDigits n) : m = n := by
  have h2 := congrArg digitsVal h
  rwa [digitsVal_natDigits, digitsVal_natDigits] at h2

lemma append_sep_inj (sep : Char) :
    ∀ (a b x y : List Char), sep ∉ a → sep ∉ b → a ++ sep :: x = b ++ sep :: y →
      a = b ∧ x = y := by
  intro a
  induction a with
  | nil =>
    intro b x y _ hb h
    cases b with
    | nil => simpa using h
    | cons c bt =>
      exfalso
      simp only [List.nil_append, List.cons_append, List.cons.injEq] at h
      refine hb ?_
      rw [h.1]
      exact List.mem_cons_self _ _
  | cons c tlA ih =>
    intro b x y ha hb h
    cases b with
    | nil =>
      exfalso
      simp only [List.cons_append, List.nil_append, List.cons.injEq] at h
      refine ha ?_
      rw [← h.1]
      exact List.mem_cons_self _ _
    | cons d tlB =>
      simp only [List.cons_append, List.cons.injEq] at h
      obtain ⟨rfl, h2⟩ := h
      have hm := ih tlB x y (fun hmem => ha (List.mem_cons_of_mem _ hmem))
        (fun hmem => hb (List.mem_cons_of_mem _ hmem)) h2
      exact ⟨by rw [hm.1], hm.2⟩

lemma sep_not_mem_digits {sep : Char} (h : ¬(48 ≤ sep.toNat ∧ sep.toNat ≤ 57)) (n : Nat) :
    sep ∉ natDigits n := fun hmem => h (natDigits_bounds n sep hmem)

lemma tablePlaceholder_inj {p i q j : Nat} (h : tablePlaceholder p i = tablePlaceholder q j) :
    p = q ∧ i = j := by
  unfold tablePlaceholder at h
  simp only [List.append_assoc, List.cons_append, List.nil_append, List.cons.injEq,
    true_and] at h
  obtain ⟨hpq, hrest⟩ := append_sep_inj '_' _ _ _ _ (sep_not_mem_digits (by decide) p)
    (sep_not_mem_digits (by decide) q) h
  obtain ⟨hij, _⟩ := append_sep_inj ' ' _ _ _ _ (sep_not_mem_digits (by decide) i)
    (sep_not_mem_digits (by decide) j) hrest
  exact ⟨natDigits_inj hpq, natDigits_inj hij⟩

lemma pageImagePlaceholder_inj {p q : Nat} (h : pageImagePlaceholder p = pageImagePlaceholder q) :
    p = q := by
  unfold pageImagePlaceholder at h
  simp only [List.append_assoc, List.cons_append, List.nil_append, List.cons.injEq,
    true_and] at h
  obtain ⟨hpq, _⟩ := append_sep_inj ' ' _ _ _ _ (sep_not_mem_digits (by decide) p)
    (sep_not_mem_digits (by decide) q) h
  exact natDigits_inj hpq

lemma tablePlaceholder_ne_pageImagePlaceholder (p i q : Nat) :
    tablePlaceholder p i ≠ pageImagePlaceholder q := by
  intro h
  have hT : (tablePlaceholder p i).get? 3 = some 'T' := rfl
  have hP : (pageImagePlaceholder q).get? 3 = some 'P' := rfl
  rw [h, hP] at hT
  exact absurd hT (by decide)

lemma tablePlaceholder_charset (p i : Nat) :
    ∀ c ∈ tablePlaceholder p i,
      c ∈ "\x7b\x7d TABLEPG_".data ∨ (48 ≤ c.toNat ∧ c.toNat ≤ 57) := by
  intro c hc
  unfold tablePlaceholder at hc
  rcases List.mem_append.1 hc with hc1 | hcG
  · rcases List.mem_append.1 hc1 with hc2 | hcC
    · rcases List.mem_append.1 hc2 with hcA | hcP
      · left
        have hsub : ∀ d ∈ "\x7b\x7b TABLE_PAGE_".data, d ∈ "\x7b\x7d TABLEPG_".data := by decide
        exact hsub c hcA
      · right
        exact natDigits_bounds p c hcP
    · rcases List.mem_cons.1 hcC with rfl | hcI
      · left; decide
      · right
        exact natDigits_bounds i c hcI
  · left
    have hsub : ∀ d ∈ " \x7d\x7d".data, d ∈ "\x7b\x7d TABLEPG_".data := by decide
    exact hsub c hcG

lemma pageImagePlaceholder_charset (p : Nat) :
    ∀ c ∈ pageImagePlaceholder p,
      c ∈ "\x7b\x7d PAGEIM_".data ∨ (48 ≤ c.toNat ∧ c.toNat ≤ 57) := by
  intro c hc
  unfold pageImagePlaceholder at hc
  rcases List.mem_append.1 hc with hc1 | hcG
  · rcases List.mem_append.1 hc1 with hcA | hcP
    · left
      have hsub : ∀ d ∈ "\x7b\x7b PAGE_IMAGE_".data, d ∈ "\x7b\x7d PAGEIM_".data := by decide
      exact hsub c hcA
    · right
      exact natDigits_bounds p c hcP
  · left
    have hsub : ∀ d ∈ " \x7d\x7d".data, d ∈ "\x7b\x7d PAGEIM_".data := by decide
    exact hsub c hcG

lemma not_mem_of_charset (ph cs : List Char) (b : Char)
    (hsub : ∀ c ∈ ph, c ∈ cs ∨ (48 ≤ c.toNat ∧ c.toNat ≤ 57))
    (hcs : b ∉ cs) (hb : ¬(48 ≤ b.toNat ∧ b.toNat ≤ 57)) : b ∉ ph := by
  intro hmem
  rcases hsub b hmem with hA | hd
  · exact hcs hA
  · exact hb hd

lemma not_mem_map_toLower_of_charset (ph cs : List Char) (b : Char)
    (hsub : ∀ c ∈ ph, c ∈ cs ∨ (48 ≤ c.toNat ∧ c.toNat ≤ 57))
    (hcs : ∀ d ∈ cs, d.toLower ≠ b) (hb : ¬(48 ≤ b.toNat ∧ b.toNat ≤ 57)) :
    b ∉ ph.map Char.toLower := by
  intro hmem
  obtain ⟨c, hc, hcl⟩ := List.mem_map.1 hmem
  rcases hsub c hc with hA | hd
  · exact hcs c hA hcl
  · rw [toLower_eq_self_of_lt c (by omega)] at hcl
    subst hcl
    exact hb hd

/-- The eight shape facts about a placeholder token needed by the chunking
conservation argument. -/
lemma placeholder_facts (ph : List Char)
    (hph : (∃ p i, ph = tablePlaceholder p i) ∨ ∃ p, ph = pageImagePlaceholder p) :
    ph ≠ [] ∧ ph.head? = some '\x7b' ∧ ph.getLast? = some '\x7d'
      ∧ '\n' ∉ ph ∧ '#' ∉ ph
      ∧ 'r' ∉ ph.map Char.toLower ∧ 'x' ∉ ph.map Char.toLower
      ∧ 'o' ∉ ph.map Char.toLower := by
  rcases hph with ⟨p, i, rfl⟩ | ⟨p, rfl⟩
  · refine ⟨?_, ?_, ?_, ?_, ?_, ?_, ?_, ?_⟩
    · intro h0
      have := congrArg List.head? h0
      rw [show (tablePlaceholder p i).head? = some '\x7b' from rfl] at this
      cases this
    · rfl
    · unfold tablePlaceholder
      rw [List.getLast?_append_of_ne_nil _ (by decide)]
      rfl
    · exact not_mem_of_charset _ _ _ (tablePlaceholder_charset p i) (by decide) (by decide)
    · exact not_mem_of_charset _ _ _ (tablePlaceholder_charset p i) (by decide) (by decide)
    · exact not_mem_map_toLower_of_charset _ _ _ (tablePlaceholder_charset p i)
        (by decide) (by decide)
    · exact not_mem_map_toLower_of_charset _ _ _ (tablePlaceholder_charset p i)
        (by decide) (by decide)
    · exact not_mem_map_toLower_of_charset _ _ _ (tablePlaceholder_charset p i)
        (by decide) (by decide)
  · refine ⟨?_, ?_, ?_, ?_, ?_, ?_, ?_, ?_⟩
    · intro h0
      have := congrArg List.head? h0
      rw [show (pageImagePlaceholder p).head? = some '\x7b' from rfl] at this
      cases this
    · rfl
    · unfold pageImagePlaceholder
      rw [List.getLast?_append_of_ne_nil _ (by decide)]
      rfl
    · exact not_mem_of_charset _ _ _ (pageImagePlaceholder_charset p) (by decide) (by decide)
    · exact not_mem_of_charset _ _ _ (pageImagePlaceholder_charset p) (by decide) (by decide)
    · exact not_mem_map_toLower_of_charset _ _ _ (pageImagePlaceholder_charset p)
        (by decide) (by decide)
    · exact not_mem_map_toLower_of_charset _ _ _ (pageImagePlaceholder_charset p)
        (by decide) (by decide)
    · exact not_mem_map_toLower_of_charset _ _ _ (pageImagePlaceholder_charset p)
        (by decide) (by decide)

/-- A signal phrase is match-compatible with no suffix of a token whose
lowered characters miss the phrase's second character and whose last
character differs from the phrase's first. -/
lemma lowCompat_false_of_token (pat y : List Char) (a b : Char)
    (h0 : (pat.map Char.toLower).get? 0 = some a)
    (h1 : (pat.map Char.toLower).get? 1 = some b)
    (hbmem : b ∉ y.map Char.toLower)
    (hlast : ∀ c, (y.map Char.toLower).getLast? = some c → c ≠ a)
    (k : Nat) (hk : k < y.length) :
    lowCompat pat (y.drop k) = false := by
  rw [Bool.eq_false_iff]
  intro htrue
  unfold lowCompat at htrue
  have hYdef : (y.drop k).map Char.toLower = (y.map Char.toLower).drop k :=
    List.map_drop Char.toLower y k
  have hYlen : ((y.drop k).map Char.toLower).length = y.length - k := by
    rw [List.length_map, List.length_drop]
  have hP1 : 1 < (pat.map Char.toLower).length := by
    obtain ⟨hlt, _⟩ := List.get?_eq_some.1 h1
    exact hlt
  have hbY : b ∈ (y.drop k).map Char.toLower → False := by
    intro hmem
    rw [hYdef] at hmem
    exact hbmem (List.drop_subset _ _ hmem)
  rcases Bool.or_eq_true_iff.1 htrue with hd1 | hd2
  · have hpre := List.isPrefixOf_iff_prefix.1 hd1
    have hg1 : ((y.drop k).map Char.toLower).get? 1 = some b := by
      rw [prefix_get?_eq hpre hP1]
      exact h1
    exact hbY (List.get?_mem hg1)
  · have hpre := List.isPrefixOf_iff_prefix.1 hd2
    rcases le_or_lt 2 ((y.drop k).map Char.toLower).length with h2 | h2
    · have hg1 : ((y.drop k).map Char.toLower).get? 1 = some b := by
        rw [← prefix_get?_eq hpre (by omega)]
        exact h1
      exact hbY (List.get?_mem hg1)
    · have hlen1 : ((y.drop k).map Char.toLower).length = 1 := by omega
      obtain ⟨c, hc⟩ := List.length_eq_one.1 hlen1
      have hg0 : ((y.drop k).map Char.toLower).get? 0 = some a := by
        rw [← prefix_get?_eq hpre (by omega)]
        exact h0
      rw [hc] at hg0
      simp only [List.get?_cons_zero, Option.some.injEq] at hg0
      have hglast : (y.map Char.toLower).getLast? = some c := by
        have hsplit : y.map Char.toLower
            = (y.map Char.toLower).take k ++ (y.map Char.toLower).drop k :=
          (List.take_append_drop k (y.map Char.toLower)).symm
        rw [hsplit, List.getLast?_append_of_ne_nil _ (by
          rw [← hYdef, hc]
          exact List.cons_ne_nil _ _)]
        rw [← hYdef, hc]
        rfl
      exact hlast c hglast hg0

/-- Total conservation: `chunk_text` neither splits, duplicates nor drops a
placeholder occurrence of a hash-free input. -/
lemma sum_cntOcc_chunk_text (t : List Char) (page : Nat) (ph : List Char)
    (hh : '#' ∉ t) (hne : ph ≠ []) (hbrace : ph.head? = some '\x7b')
    (hlast : ph.getLast? = some '\x7d') (hnl : '\n' ∉ ph) (hhash : '#' ∉ ph)
    (hr : 'r' ∉ ph.map Char.toLower) (hx : 'x' ∉ ph.map Char.toLower)
    (ho : 'o' ∉ ph.map Char.toLower) :
    ((chunk_text t page).map (fun c => cntOcc ph c.text)).sum = cntOcc ph t := by
  have hmaplast : (ph.map Char.toLower).getLast? = some (Char.toLower '\x7d') := by
    rw [← List.head?_reverse, ← List.map_reverse, List.head?_map, List.head?_reverse, hlast]
    rfl
  have hsigP : ∀ k, k < ph.length →
      lowCompat ('P' :: "rovided however".data) (ph.drop k) = false :=
    fun k hk => lowCompat_false_of_token _ ph 'p' 'r' (by decide) (by decide) hr
      (fun c hc => by rw [hmaplast] at hc; cases hc; decide) k hk
  have hsigE : ∀ k, k < ph.length →
      lowCompat ('E' :: "xcept as".data) (ph.drop k) = false :=
    fun k hk => lowCompat_false_of_token _ ph 'e' 'x' (by decide) (by decide) hx
      (fun c hc => by rw [hmaplast] at hc; cases hc; decide) k hk
  have hsigN : ∀ k, k < ph.length →
      lowCompat ('N' :: "otwithstanding".data) (ph.drop k) = false :=
    fun k hk => lowCompat_false_of_token _ ph 'n' 'o' (by decide) (by decide) ho
      (fun c hc => by rw [hmaplast] at hc; cases hc; decide) k hk
  unfold chunk_text
  rw [sum_cntOcc_chunkLoop ph hne hbrace hlast hnl hhash page _ []
    (para_marker_only_at_zero t hh)]
  simp only [List.map_nil, List.sum_nil, Nat.zero_add]
  unfold splitParas
  rw [sum_cntOcc_goSplit ph hne hnl (fun c hc => by rw [hbrace] at hc; cases hc; decide) _ []]
  simp only [List.reverse_nil, List.nil_append]
  rw [cntOcc_stripChars ph _ hne (fun c hc => by rw [hbrace] at hc; cases hc; decide)
    (fun c hc => by rw [hlast] at hc; cases hc; decide)]
  unfold markLegal
  rw [cntOcc_subSignal 'N' "otwithstanding".data ph hne hnl hbrace (by decide) hsigN,
    cntOcc_subSignal 'E' "xcept as".data ph hne hnl hbrace (by decide) hsigE,
    cntOcc_subSignal 'P' "rovided however".data ph hne hnl hbrace (by decide) hsigP]

lemma countP_infix_chunks (ph : List Char) (chunks : List TextChunk)
    (h : (chunks.map (fun c => cntOcc ph c.text)).sum = 1) :
    chunks.countP (fun c => decide (ph <:+: c.text)) = 1 := by
  have h2 := countP_pos_of_sum_one (fun c => cntOcc ph c.text) chunks h
  rw [← h2]
  refine List.countP_congr ?_
  intro c hc
  simp only [decide_eq_true_eq]
  exact infix_iff_cntOcc_pos ph c.text

/-! ### Exactly one structural-artifact record per placeholder -/

lemma countP_enumFrom_fst {α : Type} (i : Nat) :
    ∀ (l : List α) (n : Nat),
      (List.enumFrom n l).countP (fun tp => decide (tp.1 = i))
        = if n ≤ i ∧ i < n + l.length then 1 else 0 := by
  intro l
  induction l with
  | nil =>
    intro n
    simp only [List.enumFrom_nil, List.countP_nil, List.length_nil]
    split_ifs <;> omega
  | cons a l ih =>
    intro n
    rw [show List.enumFrom n (a :: l) = (n, a) :: List.enumFrom (n + 1) l from rfl,
      List.countP_cons, ih (n + 1)]
    dsimp only
    simp only [decide_eq_true_eq, List.length_cons]
    split_ifs <;> omega

lemma countP_parseBlock_table (p i q : Nat) (Pq : PdfPage) :
    (parseBlock (q, Pq)).countP
        (fun o => decide (objPlaceholder o = some (tablePlaceholder p i)))
      = if q = p ∧ 1 ≤ i ∧ i ≤ Pq.tables.length then 1 else 0 := by
  unfold parseBlock
  rw [List.countP_append, List.countP_append]
  have himg : (if Pq.hasDiagram then [DocObject.pageImage q (pageImagePlaceholder q)]
      else ([] : List DocObject)).countP
        (fun o => decide (objPlaceholder o = some (tablePlaceholder p i))) = 0 := by
    cases hD : Pq.hasDiagram
    · simp [hD]
    · simp only [hD, if_true]
      rw [List.countP_eq_zero]
      intro o ho
      rcases List.mem_singleton.1 ho with rfl
      intro hp
      have h0 := of_decide_eq_true hp
      rw [show objPlaceholder (DocObject.pageImage q (pageImagePlaceholder q))
        = some (pageImagePlaceholder q) from rfl] at h0
      simp only [Option.some.injEq] at h0
      exact tablePlaceholder_ne_pageImagePlaceholder p i q h0.symm
  have htext : ([DocObject.text q (pageTextWithPlaceholders Pq.text q Pq.tables.length)]).countP
      (fun o => decide (objPlaceholder o = some (tablePlaceholder p i))) = 0 := by
    rw [List.countP_eq_zero]
    intro o ho
    rcases List.mem_singleton.1 ho with rfl
    intro hp
    have h0 := of_decide_eq_true hp
    simp [objPlaceholder] at h0
  have hmid : ((List.enumFrom 1 Pq.tables).map
      (fun tp => DocObject.table q tp.2 (tablePlaceholder q tp.1))).countP
        (fun o => decide (objPlaceholder o = some (tablePlaceholder p i)))
      = if q = p ∧ 1 ≤ i ∧ i ≤ Pq.tables.length then 1 else 0 := by
    rw [List.countP_map]
    by_cases hq : q = p
    · subst hq
      have hcong : ∀ tp ∈ List.enumFrom 1 Pq.tables,
          (((fun o => decide (objPlaceholder o = some (tablePlaceholder q i))) ∘
            fun tp => DocObject.table q tp.2 (tablePlaceholder q tp.1)) tp = true
            ↔ (fun tp : Nat × List (List (Option String)) => decide (tp.1 = i)) tp = true) := by
        intro tp _
        simp only [Function.comp_apply]
        rw [show objPlaceholder (DocObject.table q tp.2 (tablePlaceholder q tp.1))
          = some (tablePlaceholder q tp.1) from rfl]
        simp only [Option.some.injEq, decide_eq_true_eq]
        constructor
        · intro h0
          exact (tablePlaceholder_inj h0).2
        · intro h0
          rw [h0]
      rw [List.countP_congr hcong, countP_enumFrom_fst i Pq.tables 1]
      by_cases hi : 1 ≤ i ∧ i < 1 + Pq.tables.length
      · rw [if_pos hi, if_pos ⟨rfl, hi.1, by omega⟩]
      · rw [if_neg hi, if_neg (by intro hcon; exact hi ⟨hcon.2.1, by omega⟩)]
    · have hzero : (List.enumFrom 1 Pq.tables).countP
          ((fun o => decide (objPlaceholder o = some (tablePlaceholder p i))) ∘
            fun tp => DocObject.table q tp.2 (tablePlaceholder q tp.1)) = 0 := by
        rw [List.countP_eq_zero]
        intro tp htp hp
        simp only [Function.comp_apply] at hp
        have h0 := of_decide_eq_true hp
        rw [show objPlaceholder (DocObject.table q tp.2 (tablePlaceholder q tp.1))
          = some (tablePlaceholder q tp.1) from rfl] at h0
        simp only [Option.some.injEq] at h0
        exact hq (tablePlaceholder_inj h0).1
      rw [hzero, if_neg (fun hcon => hq hcon.1)]
  rw [himg, hmid, htext]
  omega

lemma countP_parseBlock_image (p q : Nat) (Pq : PdfPage) :
    (parseBlock (q, Pq)).countP
        (fun o => decide (objPlaceholder o = some (pageImagePlaceholder p)))
      = if q = p ∧ Pq.hasDiagram = true then 1 else 0 := by
  unfold parseBlock
  rw [List.countP_append, List.countP_append]
  have himg : (if Pq.hasDiagram then [DocObject.pageImage q (pageImagePlaceholder q)]
      else ([] : List DocObject)).countP
        (fun o => decide (objPlaceholder o = some (pageImagePlaceholder p)))
      = if q = p ∧ Pq.hasDiagram = true then 1 else 0 := by
    cases hD : Pq.hasDiagram
    · simp [hD]
    · simp only [hD, if_true]
      by_cases hq : q = p
      · subst hq
        rw [if_pos ⟨rfl, trivial⟩]
        simp [List.countP_cons, objPlaceholder]
      · rw [if_neg (fun hcon => hq hcon.1), List.countP_eq_zero]
        intro o ho
        rcases List.mem_singleton.1 ho with rfl
        intro hp
        have h0 := of_decide_eq_true hp
        rw [show objPlaceholder (DocObject.pageImage q (pageImagePlaceholder q))
          = some (pageImagePlaceholder q) from rfl] at h0
        simp only [Option.some.injEq] at h0
        exact hq (pageImagePlaceholder_inj h0)
  have htext : ([DocObject.text q (pageTextWithPlaceholders Pq.text q Pq.tables.length)]).countP
      (fun o => decide (objPlaceholder o = some (pageImagePlaceholder p))) = 0 := by
    rw [List.countP_eq_zero]
    intro o ho
    rcases List.mem_singleton.1 ho with rfl
    intro hp
    have h0 := of_decide_eq_true hp
    simp [objPlaceholder] at h0
  have hmid : ((List.enumFrom 1 Pq.tables).map
      (fun tp => DocObject.table q tp.2 (tablePlaceholder q tp.1))).countP
        (fun o => decide (objPlaceholder o = some (pageImagePlaceholder p))) = 0 := by
    rw [List.countP_map, List.countP_eq_zero]
    intro tp htp hp
    simp only [Function.comp_apply] at hp
    have h0 := of_decide_eq_true hp
    rw [show objPlaceholder (DocObject.table q tp.2 (tablePlaceholder q tp.1))
      = some (tablePlaceholder q tp.1) from rfl] at h0
    simp only [Option.some.injEq] at h0
    exact tablePlaceholder_ne_pageImagePlaceholder q tp.1 p h0
  rw [himg, hmid, htext]
  omega

lemma countP_flatMap_blocks_zero (pred : DocObject → Bool) (p : Nat)
    (g : Nat → PdfPage → Nat)
    (hblock : ∀ q Pq, (parseBlock (q, Pq)).countP pred = g q Pq)
    (hg0 : ∀ q Pq, q ≠ p → g q Pq = 0) :
    ∀ (pages : List PdfPage) (m : Nat), p < m →
      ((List.enumFrom m pages).flatMap parseBlock).countP pred = 0 := by
  intro pages
  induction pages with
  | nil =>
    intro m _
    simp
  | cons P0 rest ih =>
    intro m hm
    rw [show List.enumFrom m (P0 :: rest) = (m, P0) :: List.enumFrom (m + 1) rest from rfl,
      List.flatMap_cons, List.countP_append, hblock m P0, hg0 m P0 (by omega),
      ih (m + 1) (by omega)]

lemma countP_flatMap_blocks (pred : DocObject → Bool) (p : Nat)
    (g : Nat → PdfPage → Nat)
    (hblock : ∀ q Pq, (parseBlock (q, Pq)).countP pred = g q Pq)
    (hg0 : ∀ q Pq, q ≠ p → g q Pq = 0) :
    ∀ (pages : List PdfPage) (n : Nat) (P : PdfPage), n ≤ p →
      pages.get? (p - n) = some P →
      ((List.enumFrom n pages).flatMap parseBlock).countP pred = g p P := by
  intro pages
  induction pages with
  | nil =>
    intro n P _ hget
    simp at hget
  | cons P0 rest ih =>
    intro n P hn hget
    rw [show List.enumFrom n (P0 :: rest) = (n, P0) :: List.enumFrom (n + 1) rest from rfl,
      List.flatMap_cons, List.countP_append, hblock n P0]
    by_cases hnp : n = p
    · subst hnp
      rw [Nat.sub_self] at hget
      simp only [List.get?_cons_zero, Option.some.injEq] at hget
      subst hget
      rw [countP_flatMap_blocks_zero pred n g hblock hg0 rest (n + 1) (by omega)]
      omega
    · have hget2 : rest.get? (p - (n + 1)) = some P := by
        rw [show p - n = (p - (n + 1)) + 1 from by omega, List.get?_cons_succ] at hget
        exact hget
      rw [hg0 n P0 (by omega), ih (n + 1) P (by omega) hget2]
      omega

/-- Every placeholder issued for page `p` has exactly one structural-artifact
record in `parse_pdf`, and every record carrying it names page `p`. -/
lemma parse_pdf_placeholder_unique (pages : List PdfPage) (p : Nat) (P : PdfPage)
    (hp : 1 ≤ p) (hget : pages.get? (p - 1) = some P) (ph : List Char)
    (hph : (∃ i, 1 ≤ i ∧ i ≤ P.tables.length ∧ ph = tablePlaceholder p i)
      ∨ (P.hasDiagram = true ∧ ph = pageImagePlaceholder p)) :
    (parse_pdf pages).countP (fun o => decide (objPlaceholder o = some ph)) = 1 := by
  unfold parse_pdf
  rcases hph with ⟨i, hi1, hi2, rfl⟩ | ⟨hD, rfl⟩
  · rw [countP_flatMap_blocks _ p
      (fun q Pq => if q = p ∧ 1 ≤ i ∧ i ≤ Pq.tables.length then 1 else 0)
      (fun q Pq => countP_parseBlock_table p i q Pq)
      (fun q Pq hq => if_neg (fun hcon => hq hcon.1))
      pages 1 P hp hget]
    rw [if_pos ⟨rfl, hi1, hi2⟩]
  · rw [countP_flatMap_blocks _ p
      (fun q Pq => if q = p ∧ Pq.hasDiagram = true then 1 else 0)
      (fun q Pq => countP_parseBlock_image p q Pq)
      (fun q Pq hq => if_neg (fun hcon => hq hcon.1))
      pages 1 P hp hget]
    rw [if_pos ⟨rfl, hD⟩]

lemma parse_pdf_placeholder_page (pages : List PdfPage) (p : Nat) (ph : List Char)
    (hph : (∃ i, ph = tablePlaceholder p i) ∨ ph = pageImagePlaceholder p) :
    ∀ o ∈ parse_pdf pages, objPlaceholder o = some ph → objPage o = p := by
  intro o ho hpl
  unfold parse_pdf at ho
  obtain ⟨pr, hpr, hor⟩ := List.mem_flatMap.1 ho
  unfold parseBlock at hor
  rcases List.mem_append.1 hor with h1 | h3
  · rcases List.mem_append.1 h1 with hA | hB
    · cases hD : pr.2.hasDiagram
      · rw [hD] at hA
        simp at hA
      · rw [hD] at hA
        simp only [if_true] at hA
        rcases List.mem_singleton.1 hA with rfl
        rw [show objPlaceholder (DocObject.pageImage pr.1 (pageImagePlaceholder pr.1))
          = some (pageImagePlaceholder pr.1) from rfl] at hpl
        simp only [Option.some.injEq] at hpl
        rcases hph with ⟨i, rfl⟩ | rfl
        · exact absurd hpl.symm (tablePlaceholder_ne_pageImagePlaceholder p i pr.1)
        · exact pageImagePlaceholder_inj hpl
    · obtain ⟨tp, htp, rfl⟩ := List.mem_map.1 hB
      rw [show objPlaceholder (DocObject.table pr.1 tp.2 (tablePlaceholder pr.1 tp.1))
        = some (tablePlaceholder pr.1 tp.1) from rfl] at hpl
      simp only [Option.some.injEq] at hpl
      rcases hph with ⟨i, rfl⟩ | rfl
      · exact (tablePlaceholder_inj hpl).1
      · exact absurd hpl (tablePlaceholder_ne_pageImagePlaceholder _ _ _)
  · rcases List.mem_singleton.1 h3 with rfl
    simp [objPlaceholder] at hpl

/-! ### Fuel-indexed evaluators for the well-founded definitions -/

def goSplitFuel : Nat → List Char → List Char → List (List Char)
  | 0, _, acc => [acc.reverse]
  | _ + 1, [], acc => [acc.reverse]
  | f + 1, c :: rest, acc =>
    if c = '\n' then
      match lastNewlinePos (rest.takeWhile isPySpace) with
      | some j => acc.reverse :: goSplitFuel f (rest.drop (j + 1)) []
      | none => goSplitFuel f rest (c :: acc)
    else goSplitFuel f rest (c :: acc)

lemma goSplitFuel_eq :
    ∀ (s acc : List Char) (f : Nat), s.length ≤ f → goSplitFuel f s acc = goSplit s acc := by
  intro s acc
  induction s, acc using goSplit.induct with
  | case1 acc =>
    intro f _
    cases f with
    | zero => simp only [goSplitFuel]; rw [goSplit]
    | succ f2 => simp only [goSplitFuel]; rw [goSplit]
  | case2 rest acc j hj ih =>
    intro f hf
    cases f with
    | zero =>
      simp only [List.length_cons] at hf
      exact absurd hf (by omega)
    | succ f2 =>
      simp only [goSplitFuel, if_true]
      rw [hj, goSplit, if_pos rfl, hj]
      exact congrArg (fun l => acc.reverse :: l) (ih f2 (by
        simp only [List.length_cons] at hf
        simp only [List.length_drop]
        omega))
  | case3 rest acc hj ih =>
    intro f hf
    cases f with
    | zero =>
      simp only [List.length_cons] at hf
      exact absurd hf (by omega)
    | succ f2 =>
      simp only [goSplitFuel, if_true]
      rw [hj, goSplit, if_pos rfl, hj]
      exact ih f2 (by simp only [List.length_cons] at hf; omega)
  | case4 c rest acc hc ih =>
    intro f hf
    cases f with
    | zero =>
      simp only [List.length_cons] at hf
      exact absurd hf (by omega)
    | succ f2 =>
      simp only [goSplitFuel]
      rw [if_neg hc, goSplit, if_neg hc]
      exact ih f2 (by simp only [List.length_cons] at hf; omega)

def removeAllFuel (p0 : Char) (pt : List Char) : Nat → List Char → List Char
  | 0, l => l
  | _ + 1, [] => []
  | f + 1, c :: rest =>
    if (p0 :: pt).isPrefixOf (c :: rest) then
      removeAllFuel p0 pt f ((c :: rest).drop (pt.length + 1))
    else c :: removeAllFuel p0 pt f rest

lemma removeAllFuel_eq (p0 : Char) (pt : List Char) :
    ∀ (l : List Char) (f : Nat), l.length ≤ f → removeAllFuel p0 pt f l = removeAll p0 pt l := by
  intro l
  induction l using removeAll.induct p0 pt with
  | case1 =>
    intro f _
    cases f with
    | zero => simp only [removeAllFuel]; rw [removeAll]
    | succ f2 => simp only [removeAllFuel]; rw [removeAll]
  | case2 c rest hpre ih =>
    intro f hf
    cases f with
    | zero =>
      simp only [List.length_cons] at hf
      exact absurd hf (by omega)
    | succ f2 =>
      simp only [removeAllFuel]
      rw [if_pos hpre, removeAll, if_pos hpre]
      exact ih f2 (by
        simp only [List.length_cons] at hf
        simp only [List.length_drop, List.length_cons]
        omega)
  | case3 c rest hpre ih =>
    intro f hf
    cases f with
    | zero =>
      simp only [List.length_cons] at hf
      exact absurd hf (by omega)
    | succ f2 =>
      simp only [removeAllFuel]
      rw [if_neg hpre, removeAll, if_neg hpre]
      rw [ih f2 (by simp only [List.length_cons] at hf; omega)]

def chunkLoopFuel (page : Nat) : List (List Char) → List (List Char) → List TextChunk
  | [], current => if current.isEmpty then [] else [⟨page, joinParas current⟩]
  | para :: rest, current =>
    if SPLIT_MARK.isPrefixOf (stripChars para) then
      (if current.isEmpty then [] else [⟨page, joinParas current⟩])
        ++ chunkLoopFuel page rest
            [stripChars (removeAllFuel '#' SPLIT_MARK.tail para.length para)]
    else chunkLoopFuel page rest (current ++ [para])

lemma chunkLoopFuel_eq (page : Nat) :
    ∀ (paras current : List (List Char)),
      chunkLoopFuel page paras current = chunkLoop page paras current := by
  intro paras
  induction paras with
  | nil =>
    intro current
    rfl
  | cons para rest ih =>
    intro current
    by_cases hm : SPLIT_MARK.isPrefixOf (stripChars para) = true
    · rw [chunkLoopFuel, chunkLoop, if_pos hm, if_pos hm,
        removeAllFuel_eq '#' SPLIT_MARK.tail para para.length le_rfl, ih]
    · rw [chunkLoopFuel, chunkLoop, if_neg hm, if_neg hm, ih]

lemma subSignal_eq_self (c0 : Char) (sig : List Char) :
    ∀ s, (∀ k, k < s.length → lowPrefix (c0 :: sig) (s.drop k) = false) →
      subSignal c0 sig s = s := by
  intro s
  induction s using subSignal.induct c0 sig with
  | case1 =>
    intro _
    rw [subSignal]
  | case2 c rest hmatch ih =>
    intro h
    exfalso
    have h0 := h 0 (by simp)
    rw [List.drop_zero] at h0
    rw [h0] at hmatch
    cases hmatch
  | case3 c rest hmatch ih =>
    intro h
    rw [subSignal, if_neg hmatch]
    rw [ih (fun k hk => by
      have h2 := h (k + 1) (by simp only [List.length_cons]; omega)
      rw [List.drop_succ_cons] at h2
      exact h2)]

/-! ### C7 -/

/-- A page text containing the reserved split-marker string: the first
paragraph reassembles a copy of the page-image placeholder when the markers
are removed, the second paragraph starts a fresh chunk, and the third holds
the real placeholder. -/
def c7DocText : List Char :=
  "### LEGAL_SPLIT_POINT ###\x7b\x7b PAGE### LEGAL_SPLIT_POINT ###_IMAGE_1 \x7d\x7d".data
    ++ "\n\n### LEGAL_SPLIT_POINT ### filler\n\n\x7b\x7b PAGE_IMAGE_1 \x7d\x7d".data

set_option maxRecDepth 100000 in
/-- C7, counterexample: the claim quantifies over every processed document,
but for a document whose extracted text already contains the reserved
`### LEGAL_SPLIT_POINT ###` string, `chunk_text`'s
`para.replace("### LEGAL_SPLIT_POINT ###", "")` splices a second whole copy
of the page-image placeholder together, so the placeholder occurs once in
the page text yet appears whole in two distinct emitted chunks — not
exactly one. -/
theorem c7_counterexample_marker_collision :
    cntOcc (pageImagePlaceholder 1) c7DocText = 1
    ∧ (chunk_text c7DocText 1).countP
        (fun c => decide (pageImagePlaceholder 1 <:+: c.text)) = 2 := by
  have hph : pageImagePlaceholder 1 = "\x7b\x7b PAGE_IMAGE_1 \x7d\x7d".data := by
    unfold pageImagePlaceholder
    rw [natDigits]
    decide
  have hmark : markLegal c7DocText = c7DocText := by
    unfold markLegal
    rw [subSignal_eq_self 'P' "rovided however".data c7DocText (by decide)]
    rw [subSignal_eq_self 'E' "xcept as".data c7DocText (by decide)]
    rw [subSignal_eq_self 'N' "otwithstanding".data c7DocText (by decide)]
  have hsplit : splitParas c7DocText =
      ["### LEGAL_SPLIT_POINT ###\x7b\x7b PAGE### LEGAL_SPLIT_POINT ###_IMAGE_1 \x7d\x7d".data,
        "### LEGAL_SPLIT_POINT ### filler".data,
        "\x7b\x7b PAGE_IMAGE_1 \x7d\x7d".data] := by
    unfold splitParas
    rw [show stripChars c7DocText = c7DocText from by decide]
    rw [← goSplitFuel_eq c7DocText [] 200 (by decide)]
    decide
  have hchunks : chunk_text c7DocText 1 =
      [⟨1, "\x7b\x7b PAGE_IMAGE_1 \x7d\x7d".data⟩,
        ⟨1, "filler\n\n\x7b\x7b PAGE_IMAGE_1 \x7d\x7d".data⟩] := by
    unfold chunk_text
    rw [hmark, hsplit, ← chunkLoopFuel_eq 1]
    decide
  constructor
  · rw [hph]
    decide
  · rw [hph, hchunks]
    decide

/-- C7 (amended): for a hash-free page text (one not already containing the
reserved marker character) that contains the placeholder of one of the
page's structural artifacts exactly once, the placeholder appears whole
inside exactly one chunk emitted by `chunk_text` — the occurrence total over
all chunks equals the single occurrence in the input, so it is never split
across two chunks — and `parse_pdf` holds exactly one structural-artifact
record carrying that placeholder, every such record naming the artifact's
page number. -/
theorem c7_amended_placeholder_whole_unique
    (pages : List PdfPage) (p i : Nat) (P : PdfPage)
    (hp : 1 ≤ p) (hP : pages.get? (p - 1) = some P)
    (ph : List Char)
    (hph : (1 ≤ i ∧ i ≤ P.tables.length ∧ ph = tablePlaceholder p i)
      ∨ (P.hasDiagram = true ∧ ph = pageImagePlaceholder p))
    (t : List Char) (page : Nat) (hh : '#' ∉ t) (honce : cntOcc ph t = 1) :
    (chunk_text t page).countP (fun c => decide (ph <:+: c.text)) = 1
    ∧ ((chunk_text t page).map (fun c => cntOcc ph c.text)).sum = 1
    ∧ (parse_pdf pages).countP (fun o => decide (objPlaceholder o = some ph)) = 1
    ∧ (∀ o ∈ parse_pdf pages, objPlaceholder o = some ph → objPage o = p) := by
  have hphx : (∃ p2 i2, ph = tablePlaceholder p2 i2)
      ∨ ∃ p2, ph = pageImagePlaceholder p2 := by
    rcases hph with ⟨_, _, rfl⟩ | ⟨_, rfl⟩
    · exact Or.inl ⟨p, i, rfl⟩
    · exact Or.inr ⟨p, rfl⟩
  obtain ⟨hne, hbrace, hlast, hnl, hhash, hr, hx, ho⟩ := placeholder_facts ph hphx
  have hsum : ((chunk_text t page).map (fun c => cntOcc ph c.text)).sum = 1 := by
    rw [sum_cntOcc_chunk_text t page ph hh hne hbrace hlast hnl hhash hr hx ho]
    exact honce
  refine ⟨countP_infix_chunks ph _ hsum, hsum, ?_, ?_⟩
  · refine parse_pdf_placeholder_unique pages p P hp hP ph ?_
    rcases hph with ⟨h1, h2, rfl⟩ | ⟨hD, rfl⟩
    · exact Or.inl ⟨i, h1, h2, rfl⟩
    · exact Or.inr ⟨hD, rfl⟩
  · refine parse_pdf_placeholder_page pages p ph ?_
    rcases hph with ⟨_, _, rfl⟩ | ⟨_, rfl⟩
    · exact Or.inl ⟨i, rfl⟩
    · exact Or.inr rfl

def c7WitnessPage : PdfPage := ⟨false, [], [[[some "A1"]]]⟩

def c7WitnessText : List Char := "Intro\n\n\x7b\x7b TABLE_PAGE_1_1 \x7d\x7d".data

theorem c7_amended_placeholder_whole_unique_witness :
    '#' ∉ c7WitnessText
    ∧ cntOcc (tablePlaceholder 1 1) c7WitnessText = 1
    ∧ (chunk_text c7WitnessText 1).countP
        (fun c => decide (tablePlaceholder 1 1 <:+: c.text)) = 1
    ∧ (parse_pdf [c7WitnessPage]).countP
        (fun o => decide (objPlaceholder o = some (tablePlaceholder 1 1))) = 1
    ∧ (∀ o ∈ parse_pdf [c7WitnessPage],
        objPlaceholder o = some (tablePlaceholder 1 1) → objPage o = 1) := by
  have hTP : tablePlaceholder 1 1 = "\x7b\x7b TABLE_PAGE_1_1 \x7d\x7d".data := by
    unfold tablePlaceholder
    rw [natDigits]
    decide
  have hh : '#' ∉ c7WitnessText := by decide
  have honce : cntOcc (tablePlaceholder 1 1) c7WitnessText = 1 := by
    rw [hTP]
    decide
  have hmain := c7_amended_placeholder_whole_unique [c7WitnessPage] 1 1 c7WitnessPage
    (by decide) (by decide) (tablePlaceholder 1 1)
    (Or.inl ⟨by decide, by decide, rfl⟩) c7WitnessText 1 hh honce
  exact ⟨hh, honce, hmain.1, hmain.2.2.1, hmain.2.2.2⟩

end PgVector
